import Mathlib

/-!
# gojq command-line front end: positional diagnostics

A shallow embedding of `cli/cli.go` (`printQueryParseError`, `printJSONError`)
together with the Go library behaviour these two methods rely on: strings as
byte sequences, the `range` loop over a string, `string(rune)`,
`strings.Split`, `strings.TrimRight`, `strings.Repeat` and `fmt.Fprintf`.
-/

set_option autoImplicit false

namespace Gojq

/-! ## Go strings, runes and integers -/

/-- A Go string is a sequence of bytes. Every element of a real string is below
256; the definitions below read a larger number like any other invalid byte. -/
abbrev GoString := List Nat

/-- The replacement character `utf8.RuneError`. A rune (code point) is held as a
natural number throughout. -/
def RuneError : Nat := 0xFFFD

/-- The conversion `string(r)` (also what `strings.Builder.WriteRune` appends):
the UTF-8 encoding of `r`, and the encoding of `RuneError` for a surrogate or a
value beyond `0x10FFFF`. -/
def encodeRune (r : Nat) : GoString :=
  if r < 0x80 then [r]
  else if r < 0x800 then [0xC0 + r / 64, 0x80 + r % 64]
  else if 0xD800 ≤ r ∧ r < 0xE000 then [0xEF, 0xBF, 0xBD]
  else if r < 0x10000 then [0xE0 + r / 4096, 0x80 + r / 64 % 64, 0x80 + r % 64]
  else if r < 0x110000 then
    [0xF0 + r / 262144, 0x80 + r / 4096 % 64, 0x80 + r / 64 % 64, 0x80 + r % 64]
  else [0xEF, 0xBF, 0xBD]

/-- The bytes of a sequence of runes written one after the other. -/
def encodeRunes : List Nat → GoString
  | [] => []
  | r :: rs => encodeRune r ++ encodeRunes rs

/-- A Go string literal: the UTF-8 bytes of the text. -/
def lit (s : String) : GoString := encodeRunes (s.toList.map Char.toNat)

/-- Continuation byte test, `locb <= b && b <= hicb` of package `utf8`. -/
def isCont (b : Nat) : Bool := decide (0x80 ≤ b) && decide (b ≤ 0xBF)

/-- The function `utf8.DecodeRuneInString`: the first rune of a non-empty string
and the number of bytes it occupies. Anything that is not a well-formed
encoding yields `RuneError` with size 1. -/
def decodeRune : GoString → Nat × Nat
  | [] => (RuneError, 0)
  | b0 :: rest =>
    if b0 < 0x80 then (b0, 1)
    else if b0 < 0xC2 then (RuneError, 1)
    else if b0 < 0xE0 then
      match rest with
      | b1 :: _ =>
        if isCont b1 then (b0 % 32 * 64 + b1 % 64, 2) else (RuneError, 1)
      | _ => (RuneError, 1)
    else if b0 < 0xF0 then
      match rest with
      | b1 :: b2 :: _ =>
        let lo := if b0 = 0xE0 then 0xA0 else 0x80
        let hi := if b0 = 0xED then 0x9F else 0xBF
        if b1 < lo ∨ hi < b1 then (RuneError, 1)
        else if isCont b2 then (b0 % 16 * 4096 + b1 % 64 * 64 + b2 % 64, 3)
        else (RuneError, 1)
      | _ => (RuneError, 1)
    else if b0 < 0xF5 then
      match rest with
      | b1 :: b2 :: b3 :: _ =>
        let lo := if b0 = 0xF0 then 0x90 else 0x80
        let hi := if b0 = 0xF4 then 0x8F else 0xBF
        if b1 < lo ∨ hi < b1 then (RuneError, 1)
        else if isCont b2 then
          if isCont b3 then
            (b0 % 8 * 262144 + b1 % 64 * 4096 + b2 % 64 * 64 + b3 % 64, 4)
          else (RuneError, 1)
        else (RuneError, 1)
      | _ => (RuneError, 1)
    else (RuneError, 1)

/-- Worker of `rangeString`: `skip` bytes of the rune decoded last are still to
be passed over. -/
def rangeAux : Nat → GoString → List Nat
  | _, [] => []
  | 0, b :: rest => (decodeRune (b :: rest)).1 :: rangeAux ((decodeRune (b :: rest)).2 - 1) rest
  | skip + 1, _ :: rest => rangeAux skip rest

/-- The runes that `for _, r := range s` yields, in order. -/
def rangeString (s : GoString) : List Nat := rangeAux 0 s

/-- Go's 64-bit `int` arithmetic: the result of an operation wraps around. -/
def wrapInt (x : Int) : Int := (x + 2 ^ 63) % 2 ^ 64 - 2 ^ 63

/-! ## Library functions -/

/-- The call `strings.Split(s, "\n")`: the pieces between the newline bytes. -/
def Split : GoString → List GoString
  | [] => [[]]
  | b :: rest =>
    if b = 0x0A then [] :: Split rest
    else
      match Split rest with
      | [] => [[b]]
      | l :: ls => (b :: l) :: ls

/-- The call `strings.TrimRight(s, "\n")`: `s` without its trailing newlines. -/
def TrimRight (s : GoString) : GoString :=
  (s.reverse.dropWhile (fun b => decide (b = 0x0A))).reverse

/-- The call `strings.Repeat(s, count)` on a runtime that has the memory for a
result of at most `maxLen` bytes (never more than the runtime's `maxAlloc`,
less when memory is short). A negative count, a length `len(s)*count` that
overflows `int`, and a length the runtime cannot allocate are run-time
failures, rendered as `none`. -/
def Repeat (maxLen : Nat) (s : GoString) (count : Int) : Option GoString :=
  if count < 0 then none
  else if 2 ^ 63 ≤ (s.length : Int) * count then none
  else if (maxLen : Int) < (s.length : Int) * count then none
  else some (List.replicate count.toNat s).flatten

/-- The call `strings.Repeat(" ", count)` as `printJSONError` makes it: the count
is 3 or 4 plus a display width of text of the input, which is held in memory,
so the allocation limit of `Repeat` is out of its reach (`scan_snd_le` bounds
the count by the width of the input) and only the failure for a negative count
is kept. -/
def RepeatWidth (s : GoString) (count : Int) : Option GoString :=
  if count < 0 then none else some (List.replicate count.toNat s).flatten

/-- The limit `maxAlloc` of the Go runtime on 64-bit Linux, the largest length a
slice can have there; the examples below take it as the allocation limit. -/
def maxAlloc : Nat := 2 ^ 48

/-- Indexing `xs[i]` of a slice with Go's bounds check (`none` is the panic). -/
def index (xs : List GoString) (i : Int) : Option GoString :=
  if i < 0 then none else xs[i.toNat]?

/-- The function `runewidth.StringWidth` for a given `runewidth.RuneWidth`: the
sum of the widths of the runes of the string. -/
def StringWidth (RuneWidth : Nat → Nat) (s : GoString) : Nat :=
  ((rangeString s).map RuneWidth).sum

/-- The width of a sequence of runes. -/
def runesWidth (RuneWidth : Nat → Nat) (rs : List Nat) : Nat :=
  (rs.map RuneWidth).sum

/-! ## Errors and streams -/

/-- The dynamic type of an `error` value, as far as the two printers tell types
apart: `*lexer.Error` with its position, `*json.SyntaxError` with its offset,
anything else. -/
inductive ErrorKind where
  | lexerError (Line Column : Int)
  | syntaxError (Offset : Int)
  | other
deriving DecidableEq

/-- An `error` value: its dynamic type and the text its `Error()` method
returns. -/
structure GoError where
  kind : ErrorKind
  Error : GoString
deriving DecidableEq

/-- The receiver of the methods, with each stream held as the bytes it
contains. -/
structure cli where
  inStream : GoString
  outStream : GoString
  errStream : GoString
deriving DecidableEq

/-- The call `fmt.Fprintf(cli.errStream, "    %s\n%s\n", a, b)`. -/
def Fprintf (c : cli) (a b : GoString) : cli :=
  { c with errStream := c.errStream ++ (lit "    " ++ a ++ [0x0A] ++ b ++ [0x0A]) }

/-! ## The two printers -/

/-- The method `printQueryParseError` of `cli.go`; `none` is a run-time failure.
`maxLen` is the largest number of spaces for which the runtime has the memory
to build the caret line: beyond it `strings.Repeat` fails. The sum
`3+err.Pos.Column` is taken in 64-bit arithmetic; `err.Pos.Line-1` is computed
for a positive line only and cannot wrap. -/
def printQueryParseError (maxLen : Nat) (c : cli) (query : GoString) (err : GoError) :
    Option cli :=
  match err.kind with
  | .lexerError Line Column =>
    let lines := Split query
    if 0 < Line ∧ Line ≤ (lines.length : Int) then
      match index lines (Line - 1), Repeat maxLen (lit " ") (wrapInt (3 + Column)) with
      | some line, some spaces => some (Fprintf c line (spaces ++ lit "^"))
      | _, _ => none
    else some c
  | _ => some c

/-- The loop of `printJSONError` over the runes still to be read: `s` is the
builder, `i` the byte counter, `j` the column counter. The result is the
builder and the column counter when the loop is left. The counters stay below
three times the length of the input plus one, so they are kept as unbounded
integers. -/
def scan (RuneWidth : Nat → Nat) (Offset : Int) :
    List Nat → GoString → Int → Int → GoString × Int
  | [], s, _, j => (s, j)
  | r :: rs, s, i, j =>
    let i1 := i + ((encodeRune r).length : Int)
    let j1 := if i1 ≤ Offset then j + (RuneWidth r : Int) else j
    if r = 0x0A ∨ r = 0x0D then
      if i1 = Offset then (s, j1 + 1)
      else if i1 > Offset then (s, j1)
      else scan RuneWidth Offset rs [] i1 0
    else scan RuneWidth Offset rs (s ++ encodeRune r) i1 j1

/-- The method `printJSONError` of `cli.go`; `none` is a run-time panic. -/
def printJSONError (RuneWidth : Nat → Nat) (c : cli) (input : GoString) (err : GoError) :
    Option cli :=
  if err.Error = lit "unexpected EOF" then
    let lines := Split (TrimRight input)
    match index lines ((lines.length : Int) - 1) with
    | some line =>
      match RepeatWidth (lit " ") (4 + (StringWidth RuneWidth line : Int)) with
      | some spaces => some (Fprintf c line (spaces ++ lit "^"))
      | none => none
    | none => none
  else
    match err.kind with
    | .syntaxError Offset =>
      let r := scan RuneWidth Offset (rangeString input) [] 0 0
      match RepeatWidth (lit " ") (3 + r.2) with
      | some spaces => some (Fprintf c r.1 (spaces ++ lit "^"))
      | none => none
    | _ => some c

/-- A sample width table in the shape of `runewidth.RuneWidth`: 0 for control
characters and combining marks, 2 for the East Asian wide blocks, 1 otherwise. -/
def sampleWidth (r : Nat) : Nat :=
  if r < 0x20 ∨ (0x7F ≤ r ∧ r < 0xA0) then 0
  else if 0x300 ≤ r ∧ r ≤ 0x36F then 0
  else if (0x1100 ≤ r ∧ r ≤ 0x115F) ∨ (0x2E80 ≤ r ∧ r ≤ 0xA4CF) ∨ (0xAC00 ≤ r ∧ r ≤ 0xD7A3)
      ∨ (0xF900 ≤ r ∧ r ≤ 0xFAFF) ∨ (0xFE30 ≤ r ∧ r ≤ 0xFE6F) ∨ (0xFF00 ≤ r ∧ r ≤ 0xFF60)
      ∨ (0xFFE0 ≤ r ∧ r ≤ 0xFFE6) then 2
  else 1

/-- A `*json.SyntaxError` with the given offset and message. -/
def syntaxErrorAt (msg : GoString) (Offset : Int) : GoError :=
  { kind := .syntaxError Offset, Error := msg }

/-- The value `io.ErrUnexpectedEOF`. -/
def ErrUnexpectedEOF : GoError := { kind := .other, Error := lit "unexpected EOF" }

/-- A `*lexer.Error` at the given position. -/
def lexerErrorAt (msg : GoString) (Line Column : Int) : GoError :=
  { kind := .lexerError Line Column, Error := msg }

/-- An empty set of streams. -/
def cli0 : cli := { inStream := [], outStream := [], errStream := [] }

/-- The second of the lines of a written text. -/
def secondLine (text : GoString) : Option GoString := (Split text)[1]?

/-- The caret line as the spec's renderer describes it: `caretColumn - 1` spaces
and a caret. -/
def caretLineOfSpec (caretColumn : Int) : GoString :=
  List.replicate (caretColumn - 1).toNat 0x20 ++ lit "^"

/-- The two-line diagnostic as text: four spaces, the line, a newline, then
`n` spaces, a caret and a newline. -/
def diagnostic (line : GoString) (n : Nat) : GoString :=
  lit "    " ++ line ++ lit "\n" ++ List.replicate n 0x20 ++ lit "^\n"

/-- The shape of a two-line text: it begins with four spaces, holds exactly two
newlines and ends with a caret and a newline. -/
def twoLineShape (text : GoString) : Prop :=
  text.take 4 = lit "    " ∧ text.count 0x0A = 2 ∧ ∃ body, text = body ++ lit "^\n"

/-- The content of the error stream once a printer has been called on `c`. Each
printer writes once, as its last action, so a call that fails at run time
(`none`) has left the stream as it was. -/
def errStreamAfter (c : cli) (result : Option cli) : GoString :=
  match result with
  | some c1 => c1.errStream
  | none => c.errStream

/-- The streams after `text` has been written to the error stream. -/
def writeErr (c : cli) (text : GoString) : cli :=
  { c with errStream := c.errStream ++ text }

/-- A Unicode scalar value: what a well-formed UTF-8 text consists of. -/
def validRune (r : Nat) : Prop := r < 0x110000 ∧ ¬ (0xD800 ≤ r ∧ r < 0xE000)

instance (r : Nat) : Decidable (validRune r) := by unfold validRune; infer_instance

/-- The line terminators the byte-offset scan looks for. -/
def isTerminator (r : Nat) : Prop := r = 0x0A ∨ r = 0x0D

instance (r : Nat) : Decidable (isTerminator r) := by unfold isTerminator; infer_instance

/-- The number of bytes of the encoding of a sequence of runes. -/
def byteLen (rs : List Nat) : Nat := (encodeRunes rs).length

/-! ## The command: `run` -/

/-- The constant `name`. -/
def name : GoString := lit "gojq"

/-- The constant `version`. -/
def version : GoString := lit "0.0.0"

/-- The constant `exitCodeOK`. -/
def exitCodeOK : Int := 0

/-- The constant `exitCodeErr`. -/
def exitCodeErr : Int := 1

/-- The function `unicode.IsSpace`: the code points with the White_Space
property. -/
def IsSpace (r : Nat) : Bool :=
  decide ((0x09 ≤ r ∧ r ≤ 0x0D) ∨ r = 0x20 ∨ r = 0x85 ∨ r = 0xA0 ∨ r = 0x1680
    ∨ (0x2000 ≤ r ∧ r ≤ 0x200A) ∨ r = 0x2028 ∨ r = 0x2029 ∨ r = 0x202F ∨ r = 0x205F
    ∨ r = 0x3000)

/-- Worker of `TrimLeftFunc`: the loop of `indexFunc` from the left, with `skip`
bytes of a white-space rune still to be passed over. -/
def TrimLeftAux : Nat → GoString → GoString
  | _, [] => []
  | 0, b :: rest =>
    if IsSpace (decodeRune (b :: rest)).1 then TrimLeftAux ((decodeRune (b :: rest)).2 - 1) rest
    else b :: rest
  | skip + 1, _ :: rest => TrimLeftAux skip rest

/-- The call `strings.TrimLeftFunc(s, unicode.IsSpace)`. -/
def TrimLeftFunc (s : GoString) : GoString := TrimLeftAux 0 s

/-- The function `utf8.RuneStart`: the byte is not a continuation byte. -/
def RuneStart (b : Nat) : Bool := !isCont b

/-- The backward search of `utf8.DecodeLastRuneInString` for the first byte of
the last rune: at most three bytes before the last one are looked at, and the
search ends one byte before them (or at 0) when none starts a rune. -/
def lastStart (p : GoString) : Nat :=
  if 2 ≤ p.length ∧ RuneStart (p.getD (p.length - 2) 0) = true then p.length - 2
  else if 3 ≤ p.length ∧ RuneStart (p.getD (p.length - 3) 0) = true then p.length - 3
  else if 4 ≤ p.length ∧ RuneStart (p.getD (p.length - 4) 0) = true then p.length - 4
  else p.length - 5

/-- The function `utf8.DecodeLastRuneInString`: the last rune of a string and
the number of bytes it occupies. -/
def decodeLastRune (p : GoString) : Nat × Nat :=
  match p.getLast? with
  | none => (RuneError, 0)
  | some b =>
    if b < 0x80 then (b, 1)
    else if lastStart p + (decodeRune (p.drop (lastStart p))).2 ≠ p.length then (RuneError, 1)
    else decodeRune (p.drop (lastStart p))

/-- The loop of `lastIndexFunc` from the right together with the slice
`TrimRightFunc` takes: `i` is the length of the part still to be looked at.
Each round removes at least one byte, so `fuel = len(s)` rounds are enough. -/
def TrimRightAux (s : GoString) : Nat → Nat → GoString
  | 0, i => s.take i
  | fuel + 1, i =>
    if i = 0 then []
    else if IsSpace (decodeLastRune (s.take i)).1 then
      TrimRightAux s fuel (i - (decodeLastRune (s.take i)).2)
    else s.take i

/-- The call `strings.TrimRightFunc(s, unicode.IsSpace)`. -/
def TrimRightFunc (s : GoString) : GoString := TrimRightAux s s.length s.length

/-- The call `strings.TrimSpace(s)`, that is
`TrimRightFunc(TrimLeftFunc(s, unicode.IsSpace), unicode.IsSpace)`. -/
def TrimSpace (s : GoString) : GoString := TrimRightFunc (TrimLeftFunc s)

/-- What `fs.Parse(args)` comes to: the help flag or a flag error, each with the
streams as the `flag` package leaves them, or the value of `-v` and the
positional arguments `fs.Args()`. -/
inductive FlagOutcome where
  | errHelp (c : cli)
  | failed (c : cli)
  | parsed (showVersion : Bool) (args : List GoString)

/-- The collaborators of `run`, each an arbitrary function: the `flag` package,
`strconv.Quote` (the verb `%q`), the query parser, the JSON decoder (the number
of bytes it has read from the input stream, and its result), the query
evaluator, the JSON encoder (the bytes it has written, and its error if any),
`runewidth.RuneWidth`, the two strings of the version line, and the allocation
limit `maxLen` of `printQueryParseError`. -/
structure Env (Query Value : Type) where
  maxLen : Nat
  flagParse : cli → List GoString → FlagOutcome
  Quote : GoString → GoString
  Parse : GoString → Except GoError Query
  Decode : GoString → Nat × Except GoError Value
  Run : Query → Value → Except GoError Value
  Encode : Value → GoString × Option GoError
  RuneWidth : Nat → Nat
  revision : GoString
  runtimeVersion : GoString

/-- The streams after `text` has been written to the output stream. -/
def writeOut (c : cli) (text : GoString) : cli :=
  { c with outStream := c.outStream ++ text }

/-- The streams after the decoder has read `n` bytes of the input stream. -/
def readIn (c : cli) (n : Nat) : cli :=
  { c with inStream := c.inStream.drop n }

/-- Lines 73 to 98 of `run`: the pipeline for the resolved query text `arg`.
The result is the streams and the exit status; `none` is a run-time panic. -/
def runWithQuery {Query Value : Type} (env : Env Query Value) (c : cli) (arg : GoString) :
    Option (cli × Int) :=
  match env.Parse arg with
  | .error err =>
    match printQueryParseError env.maxLen
        (writeErr c (name ++ lit ": invalid query: " ++ env.Quote arg ++ lit "\n")) arg err with
    | some c1 => some (c1, exitCodeErr)
    | none => none
  | .ok query =>
    let buf := c.inStream.take (env.Decode c.inStream).1
    let c1 := readIn c (env.Decode c.inStream).1
    match (env.Decode c.inStream).2 with
    | .error err =>
      match printJSONError env.RuneWidth
          (writeErr c1 (name ++ lit ": invalid json: " ++ err.Error ++ lit "\n")) buf err with
      | some c2 => some (c2, exitCodeErr)
      | none => none
    | .ok v =>
      match env.Run query v with
      | .error err => some (writeErr c1 (name ++ lit ": " ++ err.Error ++ lit "\n"), exitCodeErr)
      | .ok v1 =>
        match (env.Encode v1).2 with
        | some err =>
          some (writeErr (writeOut c1 (env.Encode v1).1)
            (name ++ lit ": " ++ err.Error ++ lit "\n"), exitCodeErr)
        | none => some (writeOut c1 (env.Encode v1).1, exitCodeOK)

/-- The method `run` of `cli.go`. -/
def run {Query Value : Type} (env : Env Query Value) (c : cli) (args : List GoString) :
    Option (cli × Int) :=
  match env.flagParse c args with
  | .errHelp c1 => some (c1, exitCodeOK)
  | .failed c1 => some (c1, exitCodeErr)
  | .parsed showVersion rest =>
    if showVersion = true then
      some (writeOut c (name ++ lit " " ++ version ++ lit " (rev: " ++ env.revision ++ lit "/"
        ++ env.runtimeVersion ++ lit ")\n"), exitCodeOK)
    else
      match rest with
      | [] => runWithQuery env c (lit ".")
      | [a] => runWithQuery env c (TrimSpace a)
      | _ => some (writeErr c (name ++ lit ": too many arguments\n"), exitCodeErr)

/-- The query text `run` resolves from the positional arguments: the identity
query for none, the trimmed argument for one, nothing for more. -/
def queryTextOf : List GoString → Option GoString
  | [] => some (lit ".")
  | [a] => some (TrimSpace a)
  | _ => none

/-- A small set of collaborators to run examples with: no flags, a parser that
accepts the identity query only and reports any other text at line 1, column 1,
a decoder that reads the whole input and accepts `128` only, the identity
evaluator and an encoder for that one value. -/
def sampleEnv : Env Unit Nat where
  maxLen := maxAlloc
  flagParse := fun _ args => .parsed false args
  Quote := fun q => lit "\"" ++ q ++ lit "\""
  Parse := fun q =>
    if q = lit "." then .ok () else .error (lexerErrorAt (lit "unexpected token") 1 1)
  Decode := fun input =>
    (input.length, if input = lit "128" then .ok 128 else .error ErrUnexpectedEOF)
  Run := fun _ v => .ok v
  Encode := fun _ => (lit "128\n", none)
  RuneWidth := sampleWidth
  revision := lit "HEAD"
  runtimeVersion := lit "go1.12"

/-- The collaborators of `sampleEnv` with a parser that reports every text at
line 1, column -4. -/
def negativeColumnEnv : Env Unit Nat :=
  { sampleEnv with
    Parse := fun _ => .error (lexerErrorAt (lit "unexpected token") 1 (-4)) }

/-- The value of the byte counter `i` of the scan after each rune read, were the
loop never left: each round adds `len([]byte(string(r)))`. -/
def scanCounters : List Nat → Int → List Int
  | [], _ => []
  | r :: rs, i => (i + ((encodeRune r).length : Int)) :: scanCounters rs
      (i + ((encodeRune r).length : Int))

/-- Worker of `rangeSizes`, in step with `rangeAux`. -/
def rangeSizesAux : Nat → GoString → List Nat
  | _, [] => []
  | 0, b :: rest =>
    (decodeRune (b :: rest)).2 :: rangeSizesAux ((decodeRune (b :: rest)).2 - 1) rest
  | skip + 1, _ :: rest => rangeSizesAux skip rest

/-- The number of bytes of the input that `range` consumes for each rune it
yields. -/
def rangeSizes (s : GoString) : List Nat := rangeSizesAux 0 s

/-- Running sums: the offsets at which successive pieces of the given sizes
end, counted from `start`. -/
def endOffsets : List Nat → Nat → List Nat
  | [], _ => []
  | n :: ns, start => (start + n) :: endOffsets ns (start + n)

/-- The byte offset in the input of the end of each rune that `range` yields:
the number of bytes of the input consumed so far. -/
def consumedOffsets (s : GoString) : List Nat := endOffsets (rangeSizes s) 0

/-! ## Encoding and decoding -/

theorem encodeRune_length_pos (r : Nat) : 1 ≤ (encodeRune r).length := by
  unfold encodeRune
  split_ifs <;> simp

theorem encodeRune_length_le (r : Nat) : (encodeRune r).length ≤ 4 := by
  unfold encodeRune
  split_ifs <;> simp

theorem encodeRune_ne_newline (r : Nat) (h : r ≠ 0x0A) : 0x0A ∉ encodeRune r := by
  unfold encodeRune
  split_ifs <;> simp <;> omega

theorem encodeRunes_append (xs ys : List Nat) :
    encodeRunes (xs ++ ys) = encodeRunes xs ++ encodeRunes ys := by
  induction xs with
  | nil => rfl
  | cons x xs ih => simp [encodeRunes, ih]

theorem byteLen_nil : byteLen [] = 0 := rfl

theorem byteLen_cons (r : Nat) (rs : List Nat) :
    byteLen (r :: rs) = (encodeRune r).length + byteLen rs := by
  simp [byteLen, encodeRunes]

theorem byteLen_append (xs ys : List Nat) : byteLen (xs ++ ys) = byteLen xs + byteLen ys := by
  simp [byteLen, encodeRunes_append]

theorem rangeAux_encodeRune (r : Nat) (h : validRune r) (rest : GoString) :
    rangeAux 0 (encodeRune r ++ rest) = r :: rangeAux 0 rest := by
  obtain ⟨h1, h2⟩ := h
  by_cases c1 : r < 0x80
  · simp [encodeRune, rangeAux, decodeRune, c1]
  by_cases c2 : r < 0x800
  · have e1 : ¬ (0xC0 + r / 64 < 0x80) := by omega
    have e2 : ¬ (0xC0 + r / 64 < 0xC2) := by omega
    have e3 : 0xC0 + r / 64 < 0xE0 := by omega
    have e4 : isCont (0x80 + r % 64) = true := by
      simp only [isCont, Bool.and_eq_true, decide_eq_true_eq]; omega
    simp [encodeRune, c1, c2, rangeAux, decodeRune, e1, e2, e3, e4]
    omega
  have c3 : ¬ (0xD800 ≤ r ∧ r < 0xE000) := h2
  by_cases c4 : r < 0x10000
  · have e1 : ¬ (0xE0 + r / 4096 < 0x80) := by omega
    have e2 : ¬ (0xE0 + r / 4096 < 0xC2) := by omega
    have e3 : ¬ (0xE0 + r / 4096 < 0xE0) := by omega
    have e4 : 0xE0 + r / 4096 < 0xF0 := by omega
    have e5 : isCont (0x80 + r % 64) = true := by
      simp only [isCont, Bool.and_eq_true, decide_eq_true_eq]; omega
    have e6 : ¬ ((0x80 + r / 64 % 64 < if 0xE0 + r / 4096 = 0xE0 then 0xA0 else 0x80) ∨
        (if 0xE0 + r / 4096 = 0xED then 0x9F else 0xBF) < 0x80 + r / 64 % 64) := by
      split_ifs <;> omega
    have e7 : (0xE0 + r / 4096) % 16 * 4096 + (0x80 + r / 64 % 64) % 64 * 64
        + (0x80 + r % 64) % 64 = r := by omega
    simp only [encodeRune, c1, c2, c3, c4, if_true, if_false, rangeAux, decodeRune, e1, e2, e3,
      e4, e5, e6, e7, List.cons_append, List.nil_append]
  · have e1 : ¬ (0xF0 + r / 262144 < 0x80) := by omega
    have e2 : ¬ (0xF0 + r / 262144 < 0xC2) := by omega
    have e3 : ¬ (0xF0 + r / 262144 < 0xE0) := by omega
    have e4 : ¬ (0xF0 + r / 262144 < 0xF0) := by omega
    have e4b : 0xF0 + r / 262144 < 0xF5 := by omega
    have e5 : isCont (0x80 + r % 64) = true := by
      simp only [isCont, Bool.and_eq_true, decide_eq_true_eq]; omega
    have e5b : isCont (0x80 + r / 64 % 64) = true := by
      simp only [isCont, Bool.and_eq_true, decide_eq_true_eq]; omega
    have e6 : ¬ ((0x80 + r / 4096 % 64 < if 0xF0 + r / 262144 = 0xF0 then 0x90 else 0x80) ∨
        (if 0xF0 + r / 262144 = 0xF4 then 0x8F else 0xBF) < 0x80 + r / 4096 % 64) := by
      split_ifs <;> omega
    have e7 : (0xF0 + r / 262144) % 8 * 262144 + (0x80 + r / 4096 % 64) % 64 * 4096
        + (0x80 + r / 64 % 64) % 64 * 64 + (0x80 + r % 64) % 64 = r := by omega
    simp only [encodeRune, c1, c2, c3, c4, h1, if_true, if_false, rangeAux, decodeRune, e1, e2,
      e3, e4, e4b, e5, e5b, e6, e7, List.cons_append, List.nil_append]

theorem rangeString_encodeRunes (rs : List Nat) (h : ∀ r ∈ rs, validRune r) :
    rangeString (encodeRunes rs) = rs := by
  induction rs with
  | nil => rfl
  | cons r rs ih =>
    have hr : validRune r := h r (List.mem_cons_self r rs)
    have hrs : ∀ x ∈ rs, validRune x := fun x hx => h x (List.mem_cons_of_mem r hx)
    unfold rangeString at ih ⊢
    rw [encodeRunes, rangeAux_encodeRune r hr, ih hrs]

/-! ## The byte-offset scan -/

theorem runesWidth_nil (w : Nat → Nat) : runesWidth w [] = 0 := rfl

theorem runesWidth_cons (w : Nat → Nat) (r : Nat) (rs : List Nat) :
    runesWidth w (r :: rs) = w r + runesWidth w rs := by
  simp [runesWidth]

theorem runesWidth_append (w : Nat → Nat) (xs ys : List Nat) :
    runesWidth w (xs ++ ys) = runesWidth w xs + runesWidth w ys := by
  simp [runesWidth]

/-- Runes of the fault line read before the fault offset is passed: each is
appended to the builder and counted in the column. -/
theorem scan_line_before (w : Nat → Nat) (k : Int) (rest : List Nat) :
    ∀ (xs : List Nat) (s : GoString) (i j : Int),
      (∀ r ∈ xs, ¬ isTerminator r) → i + (byteLen xs : Int) ≤ k →
      scan w k (xs ++ rest) s i j
        = scan w k rest (s ++ encodeRunes xs) (i + (byteLen xs : Int))
            (j + (runesWidth w xs : Int)) := by
  intro xs
  induction xs with
  | nil => intro s i j _ _; simp [encodeRunes, byteLen, runesWidth]
  | cons x xs ih =>
    intro s i j hx hk
    have hx0 : ¬ (x = 0x0A ∨ x = 0x0D) := hx x (List.mem_cons_self x xs)
    have hxs : ∀ r ∈ xs, ¬ isTerminator r := fun r hr => hx r (List.mem_cons_of_mem x hr)
    rw [byteLen_cons] at hk
    push_cast at hk
    have hi : i + ((encodeRune x).length : Int) ≤ k := by omega
    rw [List.cons_append, scan]
    simp only [hx0, if_false, hi, if_true]
    rw [ih _ _ _ hxs (by omega), byteLen_cons, runesWidth_cons, encodeRunes]
    push_cast
    simp only [List.append_assoc, add_assoc]

/-- Everything up to and including a terminator that ends before the fault
offset is dropped: the builder and the column start afresh. -/
theorem scan_skip (w : Nat → Nat) (k : Int) (rest : List Nat) (t : Nat) (ht : isTerminator t) :
    ∀ (ys : List Nat) (s : GoString) (i j : Int),
      i + (byteLen (ys ++ [t]) : Int) < k →
      scan w k (ys ++ t :: rest) s i j
        = scan w k rest [] (i + (byteLen (ys ++ [t]) : Int)) 0 := by
  have ht0 : t = 0x0A ∨ t = 0x0D := ht
  intro ys
  induction ys with
  | nil =>
    intro s i j hk
    simp only [List.nil_append, byteLen_cons, byteLen_nil, add_zero] at hk ⊢
    rw [scan]
    have h1 : ¬ (i + ((encodeRune t).length : Int) = k) := by omega
    have h2 : ¬ (i + ((encodeRune t).length : Int) > k) := by omega
    simp only [ht0, if_true, h1, h2, if_false]
  | cons y ys ih =>
    intro s i j hk
    rw [List.cons_append, byteLen_cons] at hk
    push_cast at hk
    have hpos := encodeRune_length_pos t
    have hb : (byteLen (ys ++ [t]) : Int) ≥ 0 := Int.natCast_nonneg _
    rw [List.cons_append, scan]
    have h1 : ¬ (i + ((encodeRune y).length : Int) = k) := by omega
    have h2 : ¬ (i + ((encodeRune y).length : Int) > k) := by omega
    have e : i + ((encodeRune y).length : Int) + (byteLen (ys ++ [t]) : Int)
        = i + (byteLen (y :: ys ++ [t]) : Int) := by
      rw [List.cons_append, byteLen_cons]; push_cast; omega
    by_cases hy : y = 0x0A ∨ y = 0x0D
    · simp only [hy, if_true, h1, h2, if_false]
      rw [ih _ _ _ (by omega), e]
    · simp only [hy, if_false]
      rw [ih _ _ _ (by omega), e]

/-- Runes of the fault line read after the fault offset is passed: each is
appended to the builder, the column stays. -/
theorem scan_line_after (w : Nat → Nat) (k : Int) (rest : List Nat) :
    ∀ (xs : List Nat) (s : GoString) (i j : Int),
      (∀ r ∈ xs, ¬ isTerminator r) → k ≤ i →
      scan w k (xs ++ rest) s i j
        = scan w k rest (s ++ encodeRunes xs) (i + (byteLen xs : Int)) j := by
  intro xs
  induction xs with
  | nil => intro s i j _ _; simp [encodeRunes, byteLen]
  | cons x xs ih =>
    intro s i j hx hk
    have hx0 : ¬ (x = 0x0A ∨ x = 0x0D) := hx x (List.mem_cons_self x xs)
    have hxs : ∀ r ∈ xs, ¬ isTerminator r := fun r hr => hx r (List.mem_cons_of_mem x hr)
    have hpos := encodeRune_length_pos x
    have hi : ¬ (i + ((encodeRune x).length : Int) ≤ k) := by omega
    rw [List.cons_append, scan]
    simp only [hx0, if_false, hi]
    rw [ih _ _ _ hxs (by omega), byteLen_cons, encodeRunes]
    push_cast
    simp only [List.append_assoc, add_assoc]

/-- Once the fault offset is passed the loop ends at the end of the text or at
the next terminator, with the builder and the column as they are. -/
theorem scan_stop (w : Nat → Nat) (k : Int) (rest : List Nat) (s : GoString) (i j : Int)
    (hk : k ≤ i) (hrest : ∀ t ∈ rest.head?, isTerminator t) :
    scan w k rest s i j = (s, j) := by
  cases rest with
  | nil => rfl
  | cons t tl =>
    have ht : t = 0x0A ∨ t = 0x0D := hrest t (by simp)
    have hpos := encodeRune_length_pos t
    have h0 : ¬ (i + ((encodeRune t).length : Int) ≤ k) := by omega
    have h1 : ¬ (i + ((encodeRune t).length : Int) = k) := by omega
    have h2 : i + ((encodeRune t).length : Int) > k := by omega
    rw [scan]
    simp only [ht, if_true, h0, h1, h2, if_false]

/-- Text that is empty or ends with a terminator, all of it before the fault
offset, leaves the scan in its initial state. -/
theorem scan_leading (w : Nat → Nat) (k : Int) (rest pre : List Nat) (i : Int)
    (hpre : ∀ t ∈ pre.getLast?, isTerminator t)
    (hk : pre ≠ [] → i + (byteLen pre : Int) < k) :
    scan w k (pre ++ rest) [] i 0 = scan w k rest [] (i + (byteLen pre : Int)) 0 := by
  rcases List.eq_nil_or_concat pre with h | ⟨ys, t, h⟩
  · subst h; simp [byteLen_nil]
  · rw [List.concat_eq_append] at h
    subst h
    have ht : isTerminator t := hpre t (by simp)
    have hk2 := hk (by simp)
    rw [List.append_assoc, List.singleton_append, scan_skip w k rest t ht ys [] i 0 hk2]

theorem scan_snd_nonneg (w : Nat → Nat) (k : Int) :
    ∀ (rs : List Nat) (s : GoString) (i j : Int), 0 ≤ j → 0 ≤ (scan w k rs s i j).2 := by
  intro rs
  induction rs with
  | nil => intro s i j hj; simpa [scan] using hj
  | cons r rs ih =>
    intro s i j hj
    have hw : (0 : Int) ≤ (w r : Int) := Int.natCast_nonneg _
    rw [scan]
    split_ifs <;> first | (apply ih; omega) | (simp only; omega)

theorem lit_space : lit " " = [0x20] := by decide

theorem lit_caret : lit "^" = [0x5E] := by decide

theorem lit_indent : lit "    " = [0x20, 0x20, 0x20, 0x20] := by decide

theorem RepeatWidth_space (n : Nat) :
    RepeatWidth (lit " ") (n : Int) = some (List.replicate n 0x20) := by
  have h : ¬ ((n : Int) < 0) := by omega
  simp only [RepeatWidth, h, if_false, lit_space, Int.toNat_ofNat]
  congr 1
  induction n with
  | zero => rfl
  | succ n ih => simp [List.replicate_succ, ih]

theorem RepeatWidth_space_of_nonneg (x : Int) (h : 0 ≤ x) :
    RepeatWidth (lit " ") x = some (List.replicate x.toNat 0x20) := by
  obtain ⟨n, rfl⟩ := Int.eq_ofNat_of_zero_le h
  simpa using RepeatWidth_space n

theorem Repeat_neg (maxLen : Nat) (s : GoString) (x : Int) (h : x < 0) :
    Repeat maxLen s x = none := by
  simp [Repeat, h]

theorem Repeat_too_long (maxLen : Nat) (x : Int) (h : (maxLen : Int) < x) :
    Repeat maxLen (lit " ") x = none := by
  have h0 : ¬ (x < 0) := by omega
  have h1 : ((lit " ").length : Int) * x = x := by rw [lit_space]; simp
  simp only [Repeat, h0, if_false, h1, h, if_true]
  split_ifs <;> rfl

/-- A count that is a non-negative Go `int` within the allocation limit gives
that many spaces. -/
theorem Repeat_space_of_range (maxLen : Nat) (x : Int) (h0 : 0 ≤ x) (h1 : x ≤ (maxLen : Int))
    (h2 : x < 2 ^ 63) :
    Repeat maxLen (lit " ") x = some (List.replicate x.toNat 0x20) := by
  have e0 : ¬ (x < 0) := by omega
  have e1 : ((lit " ").length : Int) * x = x := by rw [lit_space]; simp
  have e2 : ¬ ((2 : Int) ^ 63 ≤ x) := by omega
  have e3 : ¬ ((maxLen : Int) < x) := by omega
  have e4 := RepeatWidth_space_of_nonneg x h0
  simp only [RepeatWidth, e0, if_false] at e4
  simp only [Repeat, e0, if_false, e1, e2, e3]
  exact e4

theorem wrapInt_range (x : Int) : -(2 ^ 63) ≤ wrapInt x ∧ wrapInt x < 2 ^ 63 := by
  unfold wrapInt
  omega

/-- The byte-offset path of `printJSONError` in terms of the scan. -/
theorem printJSONError_syntaxError (w : Nat → Nat) (c : cli) (input : GoString) (err : GoError)
    (k : Int) (hkind : err.kind = .syntaxError k) (herr : err.Error ≠ lit "unexpected EOF") :
    printJSONError w c input err
      = some (Fprintf c (scan w k (rangeString input) [] 0 0).1
          (List.replicate (3 + (scan w k (rangeString input) [] 0 0).2).toNat 0x20 ++ lit "^")) := by
  have h := scan_snd_nonneg w k (rangeString input) [] 0 0 (le_refl 0)
  unfold printJSONError
  rw [if_neg herr, hkind]
  simp only
  rw [RepeatWidth_space_of_nonneg _ (by omega)]

theorem Fprintf_caret (c : cli) (line : GoString) (n : Nat) :
    Fprintf c line (List.replicate n 0x20 ++ lit "^") = writeErr c (diagnostic line n) := by
  have h1 : lit "\n" = [0x0A] := by decide
  have h2 : lit "^\n" = [0x5E, 0x0A] := by decide
  simp [Fprintf, writeErr, diagnostic, h1, h2, lit_caret]

/-! ## Byte-offset faults -/

/-- C1. Byte-offset fault on an ordinary character: the input is well-formed
UTF-8 text, read as `pre`, then the line `ls ++ ch :: le` (no terminator in it,
a terminator or nothing on either side), then `post`; the syntax error's offset
is the byte offset of the end of the non-terminator `ch`. Then `printJSONError`
writes four spaces, the whole line, a newline, `3 + W` spaces, a caret and a
newline, where `W` is the display width of the line up to and including `ch`. -/
theorem printJSONError_fault_on_character (w : Nat → Nat) (c : cli) (err : GoError)
    (pre ls le post : List Nat) (ch : Nat)
    (hkind : err.kind = .syntaxError (byteLen (pre ++ (ls ++ [ch]))))
    (herr : err.Error ≠ lit "unexpected EOF")
    (hvalid : ∀ r ∈ pre ++ (ls ++ ch :: (le ++ post)), validRune r)
    (hpre : ∀ t ∈ pre.getLast?, isTerminator t)
    (hls : ∀ r ∈ ls, ¬ isTerminator r)
    (hch : ¬ isTerminator ch)
    (hle : ∀ r ∈ le, ¬ isTerminator r)
    (hpost : ∀ t ∈ post.head?, isTerminator t) :
    printJSONError w c (encodeRunes (pre ++ (ls ++ ch :: (le ++ post)))) err
      = some (writeErr c
          (diagnostic (encodeRunes (ls ++ ch :: le)) (3 + runesWidth w (ls ++ [ch])))) := by
  rw [printJSONError_syntaxError w c _ err _ hkind herr, rangeString_encodeRunes _ hvalid,
    Fprintf_caret]
  have hlc : ∀ r ∈ ls ++ [ch], ¬ isTerminator r := by
    intro r hr
    rcases List.mem_append.1 hr with h | h
    · exact hls r h
    · rw [List.mem_singleton.1 h]; exact hch
  have hposch := encodeRune_length_pos ch
  have hlen : byteLen (pre ++ (ls ++ [ch])) = byteLen pre + byteLen (ls ++ [ch]) :=
    byteLen_append _ _
  have hlen2 : byteLen (ls ++ [ch]) = byteLen ls + (encodeRune ch).length := by
    rw [byteLen_append, byteLen_cons, byteLen_nil]; rfl
  have e : pre ++ (ls ++ ch :: (le ++ post)) = pre ++ ((ls ++ [ch]) ++ (le ++ post)) := by simp
  rw [e, scan_leading w _ _ pre 0 hpre (by intro _; rw [hlen, hlen2]; push_cast; omega),
    scan_line_before w _ _ (ls ++ [ch]) [] _ 0 hlc (by rw [hlen]; push_cast; omega),
    scan_line_after w _ _ le _ _ _ hle (by rw [hlen]; push_cast; omega),
    scan_stop w _ post _ _ _ (by rw [hlen]; push_cast; omega) hpost]
  simp only [List.nil_append, zero_add, Int.toNat_ofNat, ← encodeRunes_append,
    List.append_assoc, List.singleton_append]
  congr 2

/-- C1, on the text of the test "invalid json: invalid character": the fault is
the `1` that ends at byte 23, and the caret follows 19 spaces. -/
theorem printJSONError_fault_on_character_witness :
    printJSONError sampleWidth cli0 (lit "\x7b\n  \"あいうえお\" 100\n\x7d")
        (syntaxErrorAt (lit "invalid character '1' after object key") 23)
      = some (writeErr cli0 (diagnostic (lit "  \"あいうえお\" 100") 19)) :=
  printJSONError_fault_on_character sampleWidth cli0
    (syntaxErrorAt (lit "invalid character '1' after object key") 23)
    [0x7B, 0x0A] [0x20, 0x20, 0x22, 0x3042, 0x3044, 0x3046, 0x3048, 0x304A, 0x22, 0x20]
    [0x30, 0x30] [0x0A, 0x7D] 0x31
    (by decide) (by decide) (by decide) (by decide) (by decide) (by decide) (by decide)
    (by decide)

/-- C2. Byte-offset fault on a line terminator: the input is well-formed UTF-8
text, read as `pre` (empty or ending with a terminator), the terminator-free
`line`, the terminator `t` and `post`; the offset is the byte offset of the end
of `t`. Then `printJSONError` writes four spaces, `line`, a newline, then
`3 + widthOf(line) + widthOf(t) + 1` spaces, a caret and a newline; when `t`
has width 0 that is `4 + widthOf(line)` spaces. -/
theorem printJSONError_fault_on_terminator (w : Nat → Nat) (c : cli) (err : GoError)
    (pre line post : List Nat) (t : Nat)
    (hkind : err.kind = .syntaxError (byteLen (pre ++ (line ++ [t]))))
    (herr : err.Error ≠ lit "unexpected EOF")
    (hvalid : ∀ r ∈ pre ++ (line ++ t :: post), validRune r)
    (hpre : ∀ u ∈ pre.getLast?, isTerminator u)
    (hline : ∀ r ∈ line, ¬ isTerminator r)
    (ht : isTerminator t) :
    printJSONError w c (encodeRunes (pre ++ (line ++ t :: post))) err
        = some (writeErr c (diagnostic (encodeRunes line) (3 + runesWidth w line + w t + 1)))
      ∧ (w t = 0 →
        printJSONError w c (encodeRunes (pre ++ (line ++ t :: post))) err
          = some (writeErr c (diagnostic (encodeRunes line) (4 + runesWidth w line)))) := by
  have main : printJSONError w c (encodeRunes (pre ++ (line ++ t :: post))) err
      = some (writeErr c (diagnostic (encodeRunes line) (3 + runesWidth w line + w t + 1))) := by
    rw [printJSONError_syntaxError w c _ err _ hkind herr, rangeString_encodeRunes _ hvalid,
      Fprintf_caret]
    have hpost := encodeRune_length_pos t
    have ht0 : t = 0x0A ∨ t = 0x0D := ht
    have hlen : byteLen (pre ++ (line ++ [t]))
        = byteLen pre + (byteLen line + (encodeRune t).length) := by
      rw [byteLen_append, byteLen_append, byteLen_cons, byteLen_nil]; rfl
    rw [scan_leading w _ _ pre 0 hpre (by intro _; rw [hlen]; push_cast; omega),
      scan_line_before w _ _ line [] _ 0 hline (by rw [hlen]; push_cast; omega), scan]
    have h1 : (byteLen pre : Int) + (byteLen line : Int)
        + ((encodeRune t).length : Int) = ((byteLen (pre ++ (line ++ [t])) : Nat) : Int) := by
      rw [hlen]; push_cast; omega
    simp only [zero_add, List.nil_append]
    simp only [ht0, if_true, h1, le_refl]
    have e : (3 + ((runesWidth w line : Int) + (w t : Int) + 1)).toNat
        = 3 + runesWidth w line + w t + 1 := by omega
    rw [e]
  refine ⟨main, fun h0 => ?_⟩
  have e : 3 + runesWidth w line + w t + 1 = 4 + runesWidth w line := by omega
  rw [main, e]

/-- C2, on the text of the test "invalid json: string literal": the fault is
the newline that ends at byte 19, and the caret follows 17 spaces. -/
theorem printJSONError_fault_on_terminator_witness :
    printJSONError sampleWidth cli0 (lit "\x7b\n  \"いろは\": \"\n\x7d")
        (syntaxErrorAt (lit "invalid character '\\n' in string literal") 19)
      = some (writeErr cli0 (diagnostic (lit "  \"いろは\": \"") 17)) :=
  (printJSONError_fault_on_terminator sampleWidth cli0
    (syntaxErrorAt (lit "invalid character '\\n' in string literal") 19)
    [0x7B, 0x0A] [0x20, 0x20, 0x22, 0x3044, 0x308D, 0x306F, 0x22, 0x3A, 0x20, 0x22]
    [0x7D] 0x0A
    (by decide) (by decide) (by decide) (by decide) (by decide) (by decide)).2 (by decide)

/-! ## Splitting into lines -/

theorem Split_ne_nil (s : GoString) : Split s ≠ [] := by
  cases s with
  | nil => simp [Split]
  | cons b rest =>
    rw [Split]
    split_ifs
    · simp
    · split <;> simp

theorem Split_length_pos (s : GoString) : 1 ≤ (Split s).length :=
  List.length_pos.2 (Split_ne_nil s)

theorem Split_of_no_newline (s : GoString) (h : 0x0A ∉ s) : Split s = [s] := by
  induction s with
  | nil => rfl
  | cons b rest ih =>
    have hb : ¬ b = 0x0A := fun e => h (by simp [e])
    have hr : 0x0A ∉ rest := fun e => h (List.mem_cons_of_mem b e)
    rw [Split, if_neg hb, ih hr]

/-- No piece of a split contains a newline. -/
theorem Split_no_newline (s : GoString) : ∀ l ∈ Split s, 0x0A ∉ l := by
  induction s with
  | nil => intro l hl; simp [Split] at hl; simp [hl]
  | cons b rest ih =>
    intro l hl
    rw [Split] at hl
    split_ifs at hl with hb
    · rcases List.mem_cons.1 hl with h | h
      · simp [h]
      · exact ih l h
    · split at hl
      · rename_i heq; exact absurd heq (Split_ne_nil rest)
      · rename_i l0 ls heq
        rcases List.mem_cons.1 hl with h | h
        · subst h
          have h0 : 0x0A ∉ l0 := ih l0 (by rw [heq]; exact List.mem_cons_self _ _)
          intro hm
          rcases List.mem_cons.1 hm with e | e
          · exact hb e.symm
          · exact h0 e
        · exact ih l (by rw [heq]; exact List.mem_cons_of_mem _ h)

theorem Split_length_cons (b : Nat) (rest : GoString) :
    (Split (b :: rest)).length
      = if b = 0x0A then (Split rest).length + 1 else (Split rest).length := by
  rw [Split]
  split_ifs with hb
  · simp
  · split
    · rename_i heq; exact absurd heq (Split_ne_nil rest)
    · rename_i l0 ls heq; simp [heq]

theorem Split_length_append (xs ys : GoString) :
    2 ≤ (Split (xs ++ 0x0A :: ys)).length := by
  induction xs with
  | nil =>
    have h := Split_length_pos ys
    rw [List.nil_append, Split_length_cons, if_pos rfl]; omega
  | cons x xs ih =>
    rw [List.cons_append, Split_length_cons]
    split_ifs <;> omega

/-- The last piece of a split is the last piece of what follows any newline. -/
theorem Split_getLast_append (xs ys : GoString) :
    (Split (xs ++ 0x0A :: ys)).getLast? = (Split ys).getLast? := by
  induction xs with
  | nil =>
    rw [List.nil_append, Split, if_pos rfl]
    obtain ⟨l, ls, h⟩ := List.exists_cons_of_ne_nil (Split_ne_nil ys)
    rw [h]; simp [List.getLast?_cons_cons]
  | cons x xs ih =>
    obtain ⟨l, ls, h⟩ := List.exists_cons_of_ne_nil (Split_ne_nil (xs ++ 0x0A :: ys))
    rw [List.cons_append, Split]
    split_ifs with hx
    · rw [← ih, h]; simp [List.getLast?_cons_cons]
    · rw [← ih, h]
      cases ls with
      | nil =>
        have h2 := Split_length_append xs ys
        rw [h] at h2
        simp at h2
      | cons l2 ls2 => simp [List.getLast?_cons_cons]

/-- Indexing the last element of a non-empty slice succeeds. -/
theorem index_last (xs : List GoString) (h : xs ≠ []) :
    index xs ((xs.length : Int) - 1) = xs.getLast? := by
  have hpos : 1 ≤ xs.length := List.length_pos.2 h
  have h1 : ¬ ((xs.length : Int) - 1 < 0) := by omega
  have h2 : ((xs.length : Int) - 1).toNat = xs.length - 1 := by omega
  rw [index, if_neg h1, h2, List.getLast?_eq_getElem?]

/-- A text is some text that is empty or ends with a newline, followed by a
last line without newline. -/
theorem exists_last_line (s : GoString) :
    ∃ pre L, s = pre ++ L ∧ 0x0A ∉ L ∧ (∀ b ∈ pre.getLast?, b = 0x0A) := by
  induction s using List.reverseRecOn with
  | nil => exact ⟨[], [], rfl, by simp, by simp⟩
  | append_singleton s b ih =>
    obtain ⟨pre, L, hs, hL, hpre⟩ := ih
    by_cases hb : b = 0x0A
    · exact ⟨s ++ [b], [], by simp, by simp, by simp [hb]⟩
    · refine ⟨pre, L ++ [b], by rw [hs]; simp, ?_, hpre⟩
      intro hm
      rcases List.mem_append.1 hm with e | e
      · exact hL e
      · exact hb (List.mem_singleton.1 e).symm

/-- The last piece of a split is the text after the last newline. -/
theorem Split_getLast (pre L : GoString) (hL : 0x0A ∉ L) (hpre : ∀ b ∈ pre.getLast?, b = 0x0A) :
    (Split (pre ++ L)).getLast? = some L := by
  rcases List.eq_nil_or_concat pre with h | ⟨ys, t, h⟩
  · subst h; rw [List.nil_append, Split_of_no_newline L hL]; rfl
  · rw [List.concat_eq_append] at h
    subst h
    have ht : t = 0x0A := hpre t (by simp)
    subst ht
    rw [List.append_assoc, List.singleton_append, Split_getLast_append,
      Split_of_no_newline L hL]
    rfl

theorem TrimRight_concat (s : GoString) (b : Nat) :
    TrimRight (s ++ [b]) = if b = 0x0A then TrimRight s else s ++ [b] := by
  unfold TrimRight
  rw [List.reverse_append, List.reverse_singleton, List.singleton_append, List.dropWhile_cons]
  by_cases hb : b = 0x0A
  · simp [hb]
  · simp [hb]

/-- The trimmed text is the text without a run of newlines at its end, and does
not itself end with a newline. -/
theorem TrimRight_spec (s : GoString) :
    ∃ n, s = TrimRight s ++ List.replicate n 0x0A ∧ ∀ b ∈ (TrimRight s).getLast?, b ≠ 0x0A := by
  induction s using List.reverseRecOn with
  | nil => exact ⟨0, by simp [TrimRight], by simp [TrimRight]⟩
  | append_singleton s b ih =>
    obtain ⟨n, hs, hlast⟩ := ih
    rw [TrimRight_concat]
    by_cases hb : b = 0x0A
    · rw [if_pos hb]
      refine ⟨n + 1, ?_, hlast⟩
      rw [List.replicate_succ', ← List.append_assoc, ← hs, hb]
    · rw [if_neg hb]
      exact ⟨0, by simp, by simp [hb]⟩

theorem StringWidth_indent (w : Nat → Nat) (L : GoString) :
    StringWidth w (lit "    " ++ L) = 4 * w 0x20 + StringWidth w L := by
  rw [lit_indent]
  simp [StringWidth, rangeString, rangeAux, decodeRune]
  omega

/-! ## Unexpected end of input -/

/-- The unexpected-end-of-input path of `printJSONError` given the last piece of
the split. -/
theorem printJSONError_EOF (w : Nat → Nat) (c : cli) (input : GoString) (err : GoError)
    (L : GoString) (herr : err.Error = lit "unexpected EOF")
    (hget : (Split (TrimRight input)).getLast? = some L) :
    printJSONError w c input err = some (writeErr c (diagnostic L (4 + StringWidth w L))) := by
  unfold printJSONError
  rw [if_pos herr]
  simp only
  rw [index_last _ (Split_ne_nil _), hget]
  have e : (4 : Int) + (StringWidth w L : Int) = ((4 + StringWidth w L : Nat) : Int) := by
    push_cast; rfl
  simp only
  rw [e, RepeatWidth_space]
  simp only
  rw [Fprintf_caret]

/-- The last piece of the split of the trimmed input exists and holds no
newline. -/
theorem exists_last_piece (input : GoString) :
    ∃ L, (Split (TrimRight input)).getLast? = some L ∧ 0x0A ∉ L := by
  obtain ⟨pre, L, hs, hL, hpre⟩ := exists_last_line (TrimRight input)
  exact ⟨L, by rw [hs]; exact Split_getLast pre L hL hpre, hL⟩

/-- C3. Unexpected end of input: when the text of the decode error is
"unexpected EOF", `printJSONError` writes four spaces, `L`, a newline, then
`4 + widthOf(L)` spaces, a caret and a newline, where `L` is the last piece of
the split on newlines of the input without its trailing newlines. `L` holds no
newline and the input is `pre ++ L` followed by newlines only, with `pre` empty
or ending in a newline. When a space has width 1 the number of spaces before
the caret is the display width of the printed first line. -/
theorem printJSONError_unexpected_EOF (w : Nat → Nat) (c : cli) (input : GoString)
    (err : GoError) (herr : err.Error = lit "unexpected EOF") :
    ∃ L, (Split (TrimRight input)).getLast? = some L
      ∧ printJSONError w c input err = some (writeErr c (diagnostic L (4 + StringWidth w L)))
      ∧ 0x0A ∉ L
      ∧ (∃ pre n, input = pre ++ L ++ List.replicate n 0x0A
          ∧ (∀ b ∈ pre.getLast?, b = 0x0A) ∧ (L = [] → pre = []))
      ∧ (w 0x20 = 1 → StringWidth w (lit "    " ++ L) = 4 + StringWidth w L) := by
  obtain ⟨pre, L, hs, hL, hpre⟩ := exists_last_line (TrimRight input)
  obtain ⟨n, hn, hlast⟩ := TrimRight_spec input
  have hget : (Split (TrimRight input)).getLast? = some L := by
    rw [hs]; exact Split_getLast pre L hL hpre
  refine ⟨L, hget, printJSONError_EOF w c input err L herr hget, hL,
    ⟨pre, n, ?_, hpre, ?_⟩, ?_⟩
  · rw [← hs]; exact hn
  · intro hnil
    subst hnil
    rw [List.append_nil] at hs
    rcases List.eq_nil_or_concat pre with h | ⟨ys, t, h⟩
    · exact h
    · rw [List.concat_eq_append] at h
      exfalso
      have h1 : t = 0x0A := hpre t (by rw [h]; simp)
      exact hlast t (by rw [hs, h]; simp) h1
  · intro hsp
    rw [StringWidth_indent, hsp]

/-- C3, on the text of the test "invalid json: eof": the input `{` gives the
line `{` and five spaces before the caret. -/
theorem printJSONError_unexpected_EOF_witness :
    printJSONError sampleWidth cli0 (lit "\x7b") ErrUnexpectedEOF
      = some (writeErr cli0 (lit "    \x7b\n     ^\n")) := by
  obtain ⟨L, hL, hp, _⟩ :=
    printJSONError_unexpected_EOF sampleWidth cli0 (lit "\x7b") ErrUnexpectedEOF rfl
  have e : (Split (TrimRight (lit "\x7b"))).getLast? = some [0x7B] := by decide
  rw [e] at hL
  cases hL
  rw [hp]
  decide

/-! ## Query-syntax faults -/

theorem wrapInt_of_range (x : Int) (h0 : -(2 ^ 63) ≤ x) (h1 : x < 2 ^ 63) : wrapInt x = x := by
  unfold wrapInt
  omega

/-- The `line`-th line of a text in range is read without failure. -/
theorem index_of_range (xs : List GoString) (Line : Int) (h1 : 1 ≤ Line)
    (h2 : Line ≤ (xs.length : Int)) :
    ∃ piece, xs[(Line - 1).toNat]? = some piece ∧ index xs (Line - 1) = some piece := by
  have hlt : (Line - 1).toNat < xs.length := by omega
  have hneg : ¬ (Line - 1 < 0) := by omega
  refine ⟨xs[(Line - 1).toNat], List.getElem?_eq_getElem hlt, ?_⟩
  rw [index, if_neg hneg, List.getElem?_eq_getElem hlt]

/-- A position whose line is in range: the line is read without failure, and the
call fails or writes according to the count `3 + Column` in 64-bit
arithmetic. -/
theorem printQueryParseError_in_range (maxLen : Nat) (c : cli) (q : GoString) (err : GoError)
    (Line Column : Int) (hkind : err.kind = .lexerError Line Column)
    (h1 : 1 ≤ Line) (h2 : Line ≤ ((Split q).length : Int)) :
    ∃ piece, (Split q)[(Line - 1).toNat]? = some piece
      ∧ ((wrapInt (3 + Column) < 0 ∨ (maxLen : Int) < wrapInt (3 + Column)) →
          printQueryParseError maxLen c q err = none)
      ∧ (0 ≤ wrapInt (3 + Column) → wrapInt (3 + Column) ≤ (maxLen : Int) →
          printQueryParseError maxLen c q err
            = some (writeErr c (diagnostic piece (wrapInt (3 + Column)).toNat))) := by
  obtain ⟨piece, hp, hi⟩ := index_of_range (Split q) Line h1 h2
  have hg : 0 < Line ∧ Line ≤ ((Split q).length : Int) := ⟨by omega, h2⟩
  refine ⟨piece, hp, ?_, ?_⟩
  · intro hbad
    have hnone : Repeat maxLen (lit " ") (wrapInt (3 + Column)) = none := by
      rcases hbad with h | h
      · exact Repeat_neg _ _ _ h
      · exact Repeat_too_long _ _ h
    unfold printQueryParseError
    rw [hkind]
    simp only
    rw [if_pos hg, hi, hnone]
  · intro h0 hlen
    unfold printQueryParseError
    rw [hkind]
    simp only
    rw [if_pos hg, hi, Repeat_space_of_range maxLen _ h0 hlen (wrapInt_range _).2]
    simp only
    rw [Fprintf_caret]

/-- A fault without a lexer position, or with a line out of range, leaves the
streams as they are. -/
theorem printQueryParseError_out_of_range (maxLen : Nat) (c : cli) (q : GoString)
    (err : GoError)
    (h : ∀ Line Column, err.kind = .lexerError Line Column →
      ¬ (1 ≤ Line ∧ Line ≤ ((Split q).length : Int))) :
    printQueryParseError maxLen c q err = some c := by
  unfold printQueryParseError
  split
  · rename_i Line Column hkind
    have hg : ¬ (0 < Line ∧ Line ≤ ((Split q).length : Int)) := by
      intro hg
      exact h Line Column hkind ⟨by omega, hg.2⟩
    simp only [if_neg hg]
  · rfl

/-- The located path of `printQueryParseError`. -/
theorem printQueryParseError_lexerError (maxLen : Nat) (c : cli) (q : GoString)
    (err : GoError) (Line Column : Int) (hkind : err.kind = .lexerError Line Column)
    (h1 : 1 ≤ Line) (h2 : Line ≤ ((Split q).length : Int))
    (hcol : 0 ≤ 3 + Column) (hlen : 3 + Column ≤ (maxLen : Int)) (hmax : 3 + Column < 2 ^ 63) :
    ∃ piece, (Split q)[(Line - 1).toNat]? = some piece
      ∧ printQueryParseError maxLen c q err
          = some (writeErr c (diagnostic piece (3 + Column).toNat)) := by
  obtain ⟨piece, hp, _, hw⟩ := printQueryParseError_in_range maxLen c q err Line Column hkind h1 h2
  have e : wrapInt (3 + Column) = 3 + Column := wrapInt_of_range _ (by omega) hmax
  rw [e] at hw
  exact ⟨piece, hp, hw hcol hlen⟩

/-- When `printQueryParseError` fails at run time. -/
theorem printQueryParseError_none_iff (maxLen : Nat) (c : cli) (q : GoString) (err : GoError) :
    printQueryParseError maxLen c q err = none ↔
      ∃ Line Column, err.kind = .lexerError Line Column
        ∧ 1 ≤ Line ∧ Line ≤ ((Split q).length : Int)
        ∧ (wrapInt (3 + Column) < 0 ∨ (maxLen : Int) < wrapInt (3 + Column)) := by
  constructor
  · intro h
    cases hk : err.kind with
    | lexerError Line Column =>
      by_cases hr : 1 ≤ Line ∧ Line ≤ ((Split q).length : Int)
      · refine ⟨Line, Column, rfl, hr.1, hr.2, ?_⟩
        by_contra hgood
        obtain ⟨piece, _, _, hw⟩ :=
          printQueryParseError_in_range maxLen c q err Line Column hk hr.1 hr.2
        rw [hw (by omega) (by omega)] at h
        exact Option.noConfusion h
      · rw [printQueryParseError_out_of_range maxLen c q err
          (by intro L C hLC; rw [hk] at hLC; cases hLC; exact hr)] at h
        exact Option.noConfusion h
    | syntaxError k =>
      rw [printQueryParseError_out_of_range maxLen c q err
        (by intro L C hLC; rw [hk] at hLC; cases hLC)] at h
      exact Option.noConfusion h
    | other =>
      rw [printQueryParseError_out_of_range maxLen c q err
        (by intro L C hLC; rw [hk] at hLC; cases hLC)] at h
      exact Option.noConfusion h
  · rintro ⟨Line, Column, hk, h1, h2, hbad⟩
    obtain ⟨_, _, hn, _⟩ := printQueryParseError_in_range maxLen c q err Line Column hk h1 h2
    exact hn hbad

/-- C4 as stated fails: for the query `abc` and the position (1, -4) the count
`3 + column` is `-1`, and for the position (1, 2^62) it is more than the
runtime can allocate; `strings.Repeat` fails and nothing is written. -/
theorem printQueryParseError_located_counterexample :
    printQueryParseError maxAlloc cli0 (lit "abc")
        (lexerErrorAt (lit "unexpected token") 1 (-4)) = none
      ∧ printQueryParseError maxAlloc cli0 (lit "abc")
        (lexerErrorAt (lit "unexpected token") 1 (2 ^ 62)) = none := by
  constructor
  · exact (printQueryParseError_none_iff _ _ _ _).2 ⟨1, -4, rfl, by decide, by decide, by decide⟩
  · exact (printQueryParseError_none_iff _ _ _ _).2
      ⟨1, 2 ^ 62, rfl, by decide, by decide, by decide⟩

/-- C4, amended. Query-syntax fault: for a lexer position `(Line, Column)` with
`1 ≤ Line ≤ n`, `n` the number of pieces of the query split on newlines, and a
count `3 + Column` that `strings.Repeat` accepts (a non-negative Go `int` not
above the length the runtime can allocate), `printQueryParseError` writes four
spaces, the `Line`-th piece, a newline, `3 + Column` spaces, a caret and a
newline. -/
theorem printQueryParseError_located (maxLen : Nat) (c : cli) (q : GoString) (err : GoError)
    (Line Column : Int) (hkind : err.kind = .lexerError Line Column)
    (h1 : 1 ≤ Line) (h2 : Line ≤ ((Split q).length : Int))
    (hcol : 0 ≤ 3 + Column) (hlen : 3 + Column ≤ (maxLen : Int)) (hmax : 3 + Column < 2 ^ 63) :
    ∃ piece, (Split q)[(Line - 1).toNat]? = some piece
      ∧ printQueryParseError maxLen c q err
          = some (writeErr c
              (lit "    " ++ piece ++ lit "\n" ++ List.replicate (3 + Column).toNat 0x20
                ++ lit "^\n")) := by
  obtain ⟨piece, hp, hi⟩ := index_of_range (Split q) Line h1 h2
  refine ⟨piece, hp, ?_⟩
  have hg : 0 < Line ∧ Line ≤ ((Split q).length : Int) := ⟨by omega, h2⟩
  have hw : wrapInt (3 + Column) = 3 + Column := wrapInt_of_range _ (by omega) hmax
  unfold printQueryParseError
  rw [hkind]
  simp only
  rw [if_pos hg, hi, hw, Repeat_space_of_range maxLen _ hcol hlen hmax]
  simp only
  rw [Fprintf_caret]
  rfl

/-- C4 amended, on the test "invalid query": the query `abc` with the fault at
line 1, column 1. -/
theorem printQueryParseError_located_witness :
    printQueryParseError maxAlloc cli0 (lit "abc")
        (lexerErrorAt (lit "unexpected token") 1 1)
      = some (writeErr cli0 (lit "    abc\n    ^\n")) := by
  obtain ⟨piece, hp, hw⟩ :=
    printQueryParseError_located maxAlloc cli0 (lit "abc")
      (lexerErrorAt (lit "unexpected token") 1 1)
      1 1 rfl (by decide) (by decide) (by decide) (by decide) (by decide)
  have e : (Split (lit "abc"))[(1 - 1 : Int).toNat]? = some (lit "abc") := by decide
  rw [e] at hp
  cases hp
  rw [hw]
  decide

/-! ## The shape of the written text -/

theorem Split_append_newline (a rest : GoString) (ha : 0x0A ∉ a) :
    Split (a ++ 0x0A :: rest) = a :: Split rest := by
  induction a with
  | nil => rw [List.nil_append, Split, if_pos rfl]
  | cons b a ih =>
    have hb : ¬ b = 0x0A := fun e => ha (by simp [e])
    have hr : 0x0A ∉ a := fun e => ha (List.mem_cons_of_mem b e)
    rw [List.cons_append, Split, if_neg hb, ih hr]

theorem lit_newline : lit "\n" = [0x0A] := by decide

theorem lit_caret_newline : lit "^\n" = [0x5E, 0x0A] := by decide

theorem not_mem_replicate_space (n : Nat) : 0x0A ∉ List.replicate n 0x20 := by
  intro h
  have := List.eq_of_mem_replicate h
  omega

theorem not_mem_caret_line (n : Nat) : 0x0A ∉ List.replicate n 0x20 ++ lit "^" := by
  rw [lit_caret]
  intro h
  rcases List.mem_append.1 h with e | e
  · exact not_mem_replicate_space n e
  · simp at e

theorem not_mem_indent (line : GoString) (h : 0x0A ∉ line) : 0x0A ∉ lit "    " ++ line := by
  rw [lit_indent]
  intro hm
  rcases List.mem_append.1 hm with e | e
  · simp at e
  · exact h e

/-- A diagnostic whose line holds no newline splits into the indented line, the
caret line and an empty rest. -/
theorem Split_diagnostic (line : GoString) (n : Nat) (h : 0x0A ∉ line) :
    Split (diagnostic line n)
      = [lit "    " ++ line, List.replicate n 0x20 ++ lit "^", []] := by
  have e : diagnostic line n
      = (lit "    " ++ line) ++ 0x0A :: ((List.replicate n 0x20 ++ lit "^") ++ 0x0A :: []) := by
    simp [diagnostic, lit_newline, lit_caret_newline, lit_caret]
  rw [e, Split_append_newline _ _ (not_mem_indent line h),
    Split_append_newline _ _ (not_mem_caret_line n)]
  rfl

theorem secondLine_diagnostic (line : GoString) (n : Nat) (h : 0x0A ∉ line) :
    secondLine (diagnostic line n) = some (List.replicate n 0x20 ++ lit "^") := by
  rw [secondLine, Split_diagnostic line n h]
  rfl

theorem encodeRunes_no_newline (rs : List Nat) (h : 0x0A ∉ rs) : 0x0A ∉ encodeRunes rs := by
  induction rs with
  | nil => simp [encodeRunes]
  | cons r rs ih =>
    have hr : r ≠ 0x0A := fun e => h (by simp [e])
    have hrs : 0x0A ∉ rs := fun e => h (List.mem_cons_of_mem r e)
    rw [encodeRunes]
    intro hm
    rcases List.mem_append.1 hm with e | e
    · exact encodeRune_ne_newline r hr e
    · exact ih hrs e

/-- The builder never receives a newline. -/
theorem scan_fst_no_newline (w : Nat → Nat) (k : Int) :
    ∀ (rs : List Nat) (s : GoString) (i j : Int), 0x0A ∉ s → 0x0A ∉ (scan w k rs s i j).1 := by
  intro rs
  induction rs with
  | nil => intro s i j hs; simpa [scan] using hs
  | cons r rs ih =>
    intro s i j hs
    rw [scan]
    by_cases hr : r = 0x0A ∨ r = 0x0D
    · simp only [hr, if_true]
      split_ifs <;> first | exact hs | exact ih _ _ _ (List.not_mem_nil _)
    · simp only [hr, if_false]
      apply ih
      have hne : r ≠ 0x0A := fun e => hr (Or.inl e)
      intro hm
      rcases List.mem_append.1 hm with e | e
      · exact hs e
      · exact encodeRune_ne_newline r hne e

/-- C5 as stated fails: for the query `abc` with the fault at (1, 1) the
locator's caret column is `3 + 1`, and the second line written has four spaces
before the caret, not `caretColumn - 1 = 3`. -/
theorem caret_line_counterexample :
    printQueryParseError maxAlloc cli0 (lit "abc") (lexerErrorAt (lit "unexpected token") 1 1)
        = some (writeErr cli0 (lit "    abc\n    ^\n"))
      ∧ secondLine (lit "    abc\n    ^\n") = some (lit "    ^")
      ∧ secondLine (lit "    abc\n    ^\n") ≠ some (caretLineOfSpec (3 + 1)) := by
  decide

/-- C5, amended. For every located diagnostic the second line written consists
of exactly `caretColumn` spaces followed by a caret, where `caretColumn` is
`3 + column` for a query-syntax fault (a count `strings.Repeat` accepts, within
the allocation limit `maxLen`), `4 + widthOf(lastLine)` for unexpected end of
input and `3 + finalColumnCounter` for a byte-offset fault. -/
theorem caret_line_spaces :
    (∀ (maxLen : Nat) (c : cli) (q : GoString) (err : GoError) (Line Column : Int),
        err.kind = .lexerError Line Column → 1 ≤ Line → Line ≤ ((Split q).length : Int) →
        0 ≤ 3 + Column → 3 + Column ≤ (maxLen : Int) → 3 + Column < 2 ^ 63 →
        ∃ text, printQueryParseError maxLen c q err = some (writeErr c text)
          ∧ secondLine text = some (List.replicate (3 + Column).toNat 0x20 ++ lit "^"))
    ∧ (∀ (w : Nat → Nat) (c : cli) (input : GoString) (err : GoError),
        err.Error = lit "unexpected EOF" →
        ∃ L text, (Split (TrimRight input)).getLast? = some L
          ∧ printJSONError w c input err = some (writeErr c text)
          ∧ secondLine text = some (List.replicate (4 + StringWidth w L) 0x20 ++ lit "^"))
    ∧ (∀ (w : Nat → Nat) (c : cli) (input : GoString) (err : GoError) (k : Int),
        err.kind = .syntaxError k → err.Error ≠ lit "unexpected EOF" →
        ∃ text, printJSONError w c input err = some (writeErr c text)
          ∧ secondLine text
            = some (List.replicate (3 + (scan w k (rangeString input) [] 0 0).2).toNat 0x20
                ++ lit "^")) := by
  refine ⟨?_, ?_, ?_⟩
  · intro maxLen c q err Line Column hkind h1 h2 hcol hlen hmax
    obtain ⟨piece, hp, hw⟩ := printQueryParseError_lexerError maxLen c q err Line Column hkind
      h1 h2 hcol hlen hmax
    refine ⟨_, hw, secondLine_diagnostic _ _ ?_⟩
    exact Split_no_newline q piece (List.getElem?_mem hp)
  · intro w c input err herr
    obtain ⟨L, hL, hno⟩ := exists_last_piece input
    exact ⟨L, _, hL, printJSONError_EOF w c input err L herr hL,
      secondLine_diagnostic _ _ hno⟩
  · intro w c input err k hkind herr
    refine ⟨_, ?_, secondLine_diagnostic _ _
      (scan_fst_no_newline w k (rangeString input) [] 0 0 (by simp))⟩
    rw [printJSONError_syntaxError w c input err k hkind herr, Fprintf_caret]

/-- C5 amended, on the test "invalid query": four spaces before the caret. -/
theorem caret_line_spaces_witness :
    ∃ text, printQueryParseError maxAlloc cli0 (lit "abc")
        (lexerErrorAt (lit "unexpected token") 1 1) = some (writeErr cli0 text)
      ∧ secondLine text = some (List.replicate 4 0x20 ++ lit "^") :=
  caret_line_spaces.1 maxAlloc cli0 (lit "abc") (lexerErrorAt (lit "unexpected token") 1 1)
    1 1 rfl (by decide) (by decide) (by decide) (by decide) (by decide)

/-- C6 fails on the code: in the query `.あ abc` the faulting `a` is the fourth
character of its line, and the three characters before it are 4 columns wide,
so `a` is printed in display column 4 + 4 = 8 (counting from 0); the caret is
written after 3 + 4 = 7 spaces, one column to the left. -/
theorem printQueryParseError_wide_character :
    printQueryParseError maxAlloc cli0 (lit ".あ abc")
        (lexerErrorAt (lit "unexpected token") 1 4)
        = some (writeErr cli0 (diagnostic (lit ".あ abc") 7))
      ∧ 4 + runesWidth sampleWidth [0x2E, 0x3042, 0x20] = 8
      ∧ encodeRunes [0x2E, 0x3042, 0x20, 0x61, 0x62, 0x63] = lit ".あ abc" := by
  decide

/-! ## Unlocatable faults -/

theorem Fprintf_ne (c : cli) (a b : GoString) : Fprintf c a b ≠ c := by
  intro h
  have h1 : (Fprintf c a b).errStream = c.errStream := by rw [h]
  have h2 := congrArg List.length h1
  simp [Fprintf, lit_indent] at h2

theorem writeErr_diagnostic_ne (c : cli) (line : GoString) (n : Nat) :
    writeErr c (diagnostic line n) ≠ c := by
  rw [← Fprintf_caret]
  exact Fprintf_ne c _ _

/-- Whatever `printQueryParseError` returns is the streams unchanged or with a
diagnostic written. -/
theorem printQueryParseError_some (maxLen : Nat) (c c' : cli) (q : GoString) (err : GoError)
    (h : printQueryParseError maxLen c q err = some c') :
    c' = c ∨ ∃ line n, 0x0A ∉ line ∧ c' = writeErr c (diagnostic line n) := by
  by_cases hu : ∀ Line Column, err.kind = .lexerError Line Column →
      ¬ (1 ≤ Line ∧ Line ≤ ((Split q).length : Int))
  · rw [printQueryParseError_out_of_range maxLen c q err hu] at h
    exact Or.inl (Option.some.inj h).symm
  · push_neg at hu
    obtain ⟨Line, Column, hk, h1, h2⟩ := hu
    obtain ⟨piece, hp, hn, hw⟩ :=
      printQueryParseError_in_range maxLen c q err Line Column hk h1 h2
    by_cases hbad : wrapInt (3 + Column) < 0 ∨ (maxLen : Int) < wrapInt (3 + Column)
    · rw [hn hbad] at h
      exact Option.noConfusion h
    · rw [hw (by omega) (by omega)] at h
      exact Or.inr ⟨piece, _, Split_no_newline q piece (List.getElem?_mem hp),
        (Option.some.inj h).symm⟩

/-- The streams are returned unchanged exactly for a fault without a lexer
position or with a line out of range. -/
theorem printQueryParseError_unchanged_iff (maxLen : Nat) (c : cli) (q : GoString)
    (err : GoError) :
    printQueryParseError maxLen c q err = some c ↔
      ∀ Line Column, err.kind = .lexerError Line Column →
        ¬ (1 ≤ Line ∧ Line ≤ ((Split q).length : Int)) := by
  constructor
  · intro h Line Column hk hr
    obtain ⟨piece, _, hn, hw⟩ :=
      printQueryParseError_in_range maxLen c q err Line Column hk hr.1 hr.2
    by_cases hbad : wrapInt (3 + Column) < 0 ∨ (maxLen : Int) < wrapInt (3 + Column)
    · rw [hn hbad] at h
      exact Option.noConfusion h
    · rw [hw (by omega) (by omega)] at h
      exact writeErr_diagnostic_ne c _ _ (Option.some.inj h)
  · exact printQueryParseError_out_of_range maxLen c q err

/-- C7 as stated fails: for the query `abc` and the position (1, -4) the error
carries a lexer position whose line is in range, yet `printQueryParseError`
writes nothing: it fails in `strings.Repeat` before the write. -/
theorem unlocatable_faults_counterexample :
    errStreamAfter cli0 (printQueryParseError maxAlloc cli0 (lit "abc")
        (lexerErrorAt (lit "unexpected token") 1 (-4))) = cli0.errStream
      ∧ ¬ (∀ Line Column,
          (lexerErrorAt (lit "unexpected token") 1 (-4)).kind = .lexerError Line Column →
          ¬ (1 ≤ Line ∧ Line ≤ ((Split (lit "abc")).length : Int))) := by
  constructor
  · rw [(printQueryParseError_none_iff _ _ _ _).2 ⟨1, -4, rfl, by decide, by decide, by decide⟩]
    rfl
  · intro h
    exact h 1 (-4) rfl ⟨by decide, by decide⟩

/-- C7, amended. `printQueryParseError` writes nothing to the error stream if
and only if the error carries no lexer position, or its line is outside
`[1, lineCount]`, or the call fails at run time; it returns with the streams
exactly as they were if and only if one of the first two holds, and it fails
exactly when the line is in range and `3 + column`, in 64-bit arithmetic, is
negative or above the length the runtime can allocate. `printJSONError` returns
with the streams exactly as they were for every error that is neither
"unexpected EOF" nor a JSON syntax error. -/
theorem unlocatable_faults_render_nothing :
    (∀ (maxLen : Nat) (c : cli) (q : GoString) (err : GoError),
        errStreamAfter c (printQueryParseError maxLen c q err) = c.errStream ↔
          ((∀ Line Column, err.kind = .lexerError Line Column →
              ¬ (1 ≤ Line ∧ Line ≤ ((Split q).length : Int)))
            ∨ printQueryParseError maxLen c q err = none))
    ∧ (∀ (maxLen : Nat) (c : cli) (q : GoString) (err : GoError),
        printQueryParseError maxLen c q err = some c ↔
          ∀ Line Column, err.kind = .lexerError Line Column →
            ¬ (1 ≤ Line ∧ Line ≤ ((Split q).length : Int)))
    ∧ (∀ (maxLen : Nat) (c : cli) (q : GoString) (err : GoError),
        printQueryParseError maxLen c q err = none ↔
          ∃ Line Column, err.kind = .lexerError Line Column
            ∧ 1 ≤ Line ∧ Line ≤ ((Split q).length : Int)
            ∧ (wrapInt (3 + Column) < 0 ∨ (maxLen : Int) < wrapInt (3 + Column)))
    ∧ (∀ (w : Nat → Nat) (c : cli) (input : GoString) (err : GoError),
        err.Error ≠ lit "unexpected EOF" → (∀ k, err.kind ≠ .syntaxError k) →
        printJSONError w c input err = some c) := by
  refine ⟨?_, printQueryParseError_unchanged_iff, printQueryParseError_none_iff, ?_⟩
  · intro maxLen c q err
    constructor
    · intro h
      cases hres : printQueryParseError maxLen c q err with
      | none => exact Or.inr rfl
      | some c1 =>
        left
        rw [hres] at h
        have hs : c1.errStream = c.errStream := h
        rcases printQueryParseError_some maxLen c c1 q err hres with e | ⟨line, n, _, e⟩
        · rw [e] at hres
          exact (printQueryParseError_unchanged_iff maxLen c q err).1 hres
        · exfalso
          rw [e] at hs
          have h2 := congrArg List.length hs
          simp [writeErr, diagnostic, lit_indent] at h2
    · rintro (h | h)
      · rw [(printQueryParseError_unchanged_iff maxLen c q err).2 h]
        rfl
      · rw [h]
        rfl
  · intro w c input err herr hkind
    unfold printJSONError
    rw [if_neg herr]
    split
    · rename_i k hk; exact absurd hk (hkind k)
    · rfl

/-- C7 amended, on the query `abc` with a position on line 2: nothing is
written. -/
theorem unlocatable_faults_render_nothing_witness :
    errStreamAfter cli0 (printQueryParseError maxAlloc cli0 (lit "abc")
        (lexerErrorAt (lit "unexpected token") 2 1)) = cli0.errStream :=
  (unlocatable_faults_render_nothing.1 maxAlloc cli0 (lit "abc")
    (lexerErrorAt (lit "unexpected token") 2 1)).2
    (Or.inl (by intro Line Column h; cases h; decide))

/-! ## Run-time failures -/

/-- C8 as stated fails: with the line in range and the column `-4` the count
handed to `strings.Repeat` is `-1`, and `printQueryParseError` panics. -/
theorem printQueryParseError_negative_column :
    printQueryParseError maxAlloc cli0 (lit "abc")
        (lexerErrorAt (lit "unexpected token") 1 (-4))
      = none := by
  decide

/-- Every outcome of `printJSONError` is a normal return, with nothing or a
two-line diagnostic written. -/
theorem printJSONError_total (w : Nat → Nat) (c : cli) (input : GoString) (err : GoError) :
    ∃ c', printJSONError w c input err = some c'
      ∧ (c' = c ∨ ∃ line n, 0x0A ∉ line ∧ c' = writeErr c (diagnostic line n)) := by
  by_cases herr : err.Error = lit "unexpected EOF"
  · obtain ⟨L, hL, hno⟩ := exists_last_piece input
    exact ⟨_, printJSONError_EOF w c input err L herr hL, Or.inr ⟨L, _, hno, rfl⟩⟩
  · cases hk : err.kind with
    | syntaxError k =>
      refine ⟨writeErr c (diagnostic (scan w k (rangeString input) [] 0 0).1
          (3 + (scan w k (rangeString input) [] 0 0).2).toNat), ?_, Or.inr ⟨_, _,
        scan_fst_no_newline w k (rangeString input) [] 0 0 (List.not_mem_nil _), rfl⟩⟩
      rw [printJSONError_syntaxError w c input err k hk herr, Fprintf_caret]
    | lexerError Line Column =>
      refine ⟨c, ?_, Or.inl rfl⟩
      unfold printJSONError
      rw [if_neg herr, hk]
    | other =>
      refine ⟨c, ?_, Or.inl rfl⟩
      unfold printJSONError
      rw [if_neg herr, hk]

/-- The outcome of `printQueryParseError` when the count `3 + Column` is one
that `strings.Repeat` accepts. -/
theorem printQueryParseError_total (maxLen : Nat) (c : cli) (q : GoString) (err : GoError)
    (hcol : ∀ Line Column, err.kind = .lexerError Line Column →
      0 ≤ 3 + Column ∧ 3 + Column ≤ (maxLen : Int) ∧ 3 + Column < 2 ^ 63) :
    ∃ c', printQueryParseError maxLen c q err = some c'
      ∧ (c' = c ∨ ∃ line n, 0x0A ∉ line ∧ c' = writeErr c (diagnostic line n)) := by
  by_cases hu : ∀ Line Column, err.kind = .lexerError Line Column →
      ¬ (1 ≤ Line ∧ Line ≤ ((Split q).length : Int))
  · exact ⟨c, printQueryParseError_out_of_range maxLen c q err hu, Or.inl rfl⟩
  · push_neg at hu
    obtain ⟨Line, Column, hk, h1, h2⟩ := hu
    obtain ⟨h0, hlen, hmax⟩ := hcol Line Column hk
    obtain ⟨piece, hp, hw⟩ :=
      printQueryParseError_lexerError maxLen c q err Line Column hk h1 h2 h0 hlen hmax
    exact ⟨_, hw, Or.inr ⟨piece, _, Split_no_newline q piece (List.getElem?_mem hp), rfl⟩⟩

/-- C8, amended. For every source text, every line and every byte offset (any
integers) and every column for which `3 + column` is a count `strings.Repeat`
accepts (a non-negative Go `int` not above `maxLen`, the length the runtime can
allocate), `printQueryParseError` and `printJSONError` complete without a
run-time failure and write either nothing or the two-line diagnostic.
`printQueryParseError` fails at run time exactly when the line is in range and
`3 + column`, taken in 64-bit arithmetic, is negative or above `maxLen`. -/
theorem printers_complete :
    (∀ (maxLen : Nat) (c : cli) (q : GoString) (err : GoError),
        (∀ Line Column, err.kind = .lexerError Line Column →
          0 ≤ 3 + Column ∧ 3 + Column ≤ (maxLen : Int) ∧ 3 + Column < 2 ^ 63) →
        ∃ c', printQueryParseError maxLen c q err = some c'
          ∧ (c' = c ∨ ∃ line n, c' = writeErr c (diagnostic line n)))
    ∧ (∀ (w : Nat → Nat) (c : cli) (input : GoString) (err : GoError),
        ∃ c', printJSONError w c input err = some c'
          ∧ (c' = c ∨ ∃ line n, c' = writeErr c (diagnostic line n)))
    ∧ (∀ (maxLen : Nat) (c : cli) (q : GoString) (err : GoError),
        printQueryParseError maxLen c q err = none ↔
          ∃ Line Column, err.kind = .lexerError Line Column
            ∧ 1 ≤ Line ∧ Line ≤ ((Split q).length : Int)
            ∧ (wrapInt (3 + Column) < 0 ∨ (maxLen : Int) < wrapInt (3 + Column))) := by
  refine ⟨?_, ?_, printQueryParseError_none_iff⟩
  · intro maxLen c q err hcol
    obtain ⟨c', h, h2⟩ := printQueryParseError_total maxLen c q err hcol
    refine ⟨c', h, ?_⟩
    rcases h2 with e | ⟨line, n, _, e⟩
    · exact Or.inl e
    · exact Or.inr ⟨line, n, e⟩
  · intro w c input err
    obtain ⟨c', h, h2⟩ := printJSONError_total w c input err
    refine ⟨c', h, ?_⟩
    rcases h2 with e | ⟨line, n, _, e⟩
    · exact Or.inl e
    · exact Or.inr ⟨line, n, e⟩

/-- C8 amended, on the query `abc` with the position (1, -3): the caret is
written without a space before it. -/
theorem printers_complete_witness :
    ∃ c', printQueryParseError maxAlloc cli0 (lit "abc")
        (lexerErrorAt (lit "unexpected token") 1 (-3)) = some c'
      ∧ (c' = cli0 ∨ ∃ line n, c' = writeErr cli0 (diagnostic line n)) :=
  printers_complete.1 maxAlloc cli0 (lit "abc") (lexerErrorAt (lit "unexpected token") 1 (-3))
    (by intro Line Column h; cases h; decide)

/-! ## Byte offsets out of range -/

/-- Once the fault offset is passed, the scan collects the runes up to the next
terminator and leaves the column as it is. -/
theorem scan_after_all (w : Nat → Nat) (k : Int) :
    ∀ (rs : List Nat) (s : GoString) (i j : Int), k ≤ i →
      scan w k rs s i j
        = (s ++ encodeRunes (rs.takeWhile (fun r => decide (¬ isTerminator r))), j) := by
  intro rs
  induction rs with
  | nil => intro s i j _; simp [scan, encodeRunes]
  | cons r rs ih =>
    intro s i j hk
    have hpos := encodeRune_length_pos r
    have h0 : ¬ (i + ((encodeRune r).length : Int) ≤ k) := by omega
    have h1 : ¬ (i + ((encodeRune r).length : Int) = k) := by omega
    have h2 : i + ((encodeRune r).length : Int) > k := by omega
    rw [scan]
    by_cases hr : r = 0x0A ∨ r = 0x0D
    · have ht : isTerminator r := hr
      simp only [hr, if_true, h0, h1, h2, if_false]
      simp [List.takeWhile_cons, ht, encodeRunes]
    · have ht : ¬ isTerminator r := hr
      simp only [hr, if_false, h0]
      rw [ih _ _ _ (by omega)]
      simp [List.takeWhile_cons, ht, encodeRunes]

/-- A sequence of runes is some text that is empty or ends with a terminator,
followed by a last line without terminator. -/
theorem exists_last_segment (rs : List Nat) :
    ∃ pre L, rs = pre ++ L ∧ (∀ r ∈ L, ¬ isTerminator r)
      ∧ (∀ t ∈ pre.getLast?, isTerminator t) := by
  induction rs using List.reverseRecOn with
  | nil => exact ⟨[], [], rfl, by simp, by simp⟩
  | append_singleton rs b ih =>
    obtain ⟨pre, L, hs, hL, hpre⟩ := ih
    by_cases hb : isTerminator b
    · exact ⟨rs ++ [b], [], by simp, by simp, by simpa using hb⟩
    · refine ⟨pre, L ++ [b], by rw [hs]; simp, ?_, hpre⟩
      intro r hm
      rcases List.mem_append.1 hm with e | e
      · exact hL r e
      · rw [List.mem_singleton.1 e]; exact hb

/-- With the fault offset beyond the end of the text the scan ends on the last
line, all of it counted in the column. -/
theorem scan_before_all (w : Nat → Nat) (k : Int) (pre L : List Nat)
    (hL : ∀ r ∈ L, ¬ isTerminator r) (hpre : ∀ t ∈ pre.getLast?, isTerminator t)
    (hk : (byteLen (pre ++ L) : Int) < k) :
    scan w k (pre ++ L) [] 0 0 = (encodeRunes L, (runesWidth w L : Int)) := by
  rw [byteLen_append] at hk
  push_cast at hk
  have h := scan_line_before w k [] L [] (0 + (byteLen pre : Int)) 0 hL (by omega)
  rw [List.append_nil] at h
  rw [scan_leading w k L pre 0 hpre (by intro _; omega), h, scan]
  simp

/-- C9 as stated fails: for the input `a` and a syntax error at offset `-1`
(and likewise at offset 5, beyond the end) a diagnostic is written. -/
theorem printJSONError_out_of_range_written :
    printJSONError sampleWidth cli0 (lit "a") (syntaxErrorAt (lit "invalid character") (-1))
        = some (writeErr cli0 (lit "    a\n   ^\n"))
      ∧ printJSONError sampleWidth cli0 (lit "a") (syntaxErrorAt (lit "invalid character") (-1))
        ≠ some cli0
      ∧ printJSONError sampleWidth cli0 (lit "a") (syntaxErrorAt (lit "invalid character") 5)
        = some (writeErr cli0 (lit "    a\n    ^\n")) := by
  decide

/-- C9, amended. For every input text and every JSON syntax error whose byte
offset is out of range, `printJSONError` still writes the two-line diagnostic:
for a negative offset the line is the text before the first terminator and the
caret follows exactly 3 spaces; for an offset greater than the byte length of
a well-formed UTF-8 text the line is the text after the last terminator and
the caret follows `3 + widthOf(line)` spaces. -/
theorem printJSONError_offset_out_of_range :
    (∀ (w : Nat → Nat) (c : cli) (input : GoString) (err : GoError) (k : Int),
        err.kind = .syntaxError k → err.Error ≠ lit "unexpected EOF" → k < 0 →
        printJSONError w c input err
          = some (writeErr c (diagnostic
              (encodeRunes ((rangeString input).takeWhile (fun r => decide (¬ isTerminator r))))
              3)))
    ∧ (∀ (w : Nat → Nat) (c : cli) (rs : List Nat) (err : GoError) (k : Int),
        (∀ r ∈ rs, validRune r) →
        err.kind = .syntaxError k → err.Error ≠ lit "unexpected EOF" →
        (byteLen rs : Int) < k →
        ∃ pre L, rs = pre ++ L ∧ (∀ r ∈ L, ¬ isTerminator r)
          ∧ (∀ t ∈ pre.getLast?, isTerminator t)
          ∧ printJSONError w c (encodeRunes rs) err
            = some (writeErr c (diagnostic (encodeRunes L) (3 + runesWidth w L)))) := by
  refine ⟨?_, ?_⟩
  · intro w c input err k hkind herr hk
    rw [printJSONError_syntaxError w c input err k hkind herr, Fprintf_caret,
      scan_after_all w k _ _ 0 0 (by omega)]
    simp
  · intro w c rs err k hvalid hkind herr hk
    obtain ⟨pre, L, hs, hL, hpre⟩ := exists_last_segment rs
    refine ⟨pre, L, hs, hL, hpre, ?_⟩
    rw [printJSONError_syntaxError w c _ err k hkind herr, Fprintf_caret,
      rangeString_encodeRunes rs hvalid]
    subst hs
    rw [scan_before_all w k pre L hL hpre hk]
    have e : (3 + (runesWidth w L : Int)).toNat = 3 + runesWidth w L := by omega
    simp only [e]

/-- C9 amended, on the input `a` with the offset `-1`. -/
theorem printJSONError_offset_out_of_range_witness :
    printJSONError sampleWidth cli0 (lit "a") (syntaxErrorAt (lit "invalid character") (-1))
      = some (writeErr cli0 (diagnostic
          (encodeRunes ((rangeString (lit "a")).takeWhile (fun r => decide (¬ isTerminator r))))
          3)) :=
  printJSONError_offset_out_of_range.1 sampleWidth cli0 (lit "a")
    (syntaxErrorAt (lit "invalid character") (-1)) (-1) rfl (by decide) (by decide)

/-! ## Exactly two lines -/

theorem diagnostic_shape (line : GoString) (n : Nat) (h : 0x0A ∉ line) :
    twoLineShape (diagnostic line n) := by
  refine ⟨?_, ?_, ⟨lit "    " ++ line ++ lit "\n" ++ List.replicate n 0x20, rfl⟩⟩
  · simp [diagnostic, lit_indent]
  · have h1 : List.count 0x0A line = 0 := List.count_eq_zero_of_not_mem h
    have h2 : List.count 0x0A (List.replicate n 0x20) = 0 :=
      List.count_eq_zero_of_not_mem (not_mem_replicate_space n)
    simp [diagnostic, lit_indent, lit_newline, lit_caret_newline, List.count_append, h1, h2]

/-- C10. Exactly two lines: whenever `printQueryParseError` or `printJSONError`
(unexpected end of input and byte-offset paths alike) writes a diagnostic, the
written text is four spaces, a line without newline, a newline, spaces, a caret
and a newline: it begins with four spaces, holds exactly two newlines and ends
with a caret and a newline. -/
theorem written_text_two_lines :
    (∀ (maxLen : Nat) (c c' : cli) (q : GoString) (err : GoError),
        printQueryParseError maxLen c q err = some c' → c' ≠ c →
        ∃ line n, c' = writeErr c (diagnostic line n) ∧ 0x0A ∉ line
          ∧ twoLineShape (diagnostic line n))
    ∧ (∀ (w : Nat → Nat) (c c' : cli) (input : GoString) (err : GoError),
        printJSONError w c input err = some c' → c' ≠ c →
        ∃ line n, c' = writeErr c (diagnostic line n) ∧ 0x0A ∉ line
          ∧ twoLineShape (diagnostic line n)) := by
  refine ⟨?_, ?_⟩
  · intro maxLen c c' q err h hne
    rcases printQueryParseError_some maxLen c c' q err h with e | ⟨line, n, hno, e⟩
    · exact absurd e hne
    · exact ⟨line, n, e, hno, diagnostic_shape line n hno⟩
  · intro w c c' input err h hne
    obtain ⟨c2, h2, hc⟩ := printJSONError_total w c input err
    rw [h] at h2
    cases h2
    rcases hc with e | ⟨line, n, hno, e⟩
    · exact absurd e hne
    · exact ⟨line, n, e, hno, diagnostic_shape line n hno⟩

/-- C10, on the test "invalid query". -/
theorem written_text_two_lines_witness :
    ∃ line n, writeErr cli0 (lit "    abc\n    ^\n") = writeErr cli0 (diagnostic line n)
      ∧ 0x0A ∉ line ∧ twoLineShape (diagnostic line n) :=
  written_text_two_lines.1 maxAlloc cli0 (writeErr cli0 (lit "    abc\n    ^\n")) (lit "abc")
    (lexerErrorAt (lit "unexpected token") 1 1) (by decide) (by decide)


/-! ## Decoding one rune -/

theorem isCont_iff (b : Nat) : isCont b = true ↔ 0x80 ≤ b ∧ b ≤ 0xBF := by
  simp [isCont]

/-- What `decodeRune` yields is either the replacement character for one byte,
or a scalar value together with the bytes of its encoding. -/
theorem decodeRune_cases (b0 : Nat) (rest : GoString) :
    decodeRune (b0 :: rest) = (RuneError, 1)
      ∨ ((b0 :: rest).take (decodeRune (b0 :: rest)).2 = encodeRune (decodeRune (b0 :: rest)).1
          ∧ (decodeRune (b0 :: rest)).2 = (encodeRune (decodeRune (b0 :: rest)).1).length
          ∧ validRune (decodeRune (b0 :: rest)).1) := by
  by_cases c1 : b0 < 0x80
  · right
    simp [decodeRune, c1, encodeRune, validRune]
    omega
  by_cases c2 : b0 < 0xC2
  · left; simp [decodeRune, c1, c2]
  by_cases c3 : b0 < 0xE0
  · cases rest with
    | nil => left; simp [decodeRune, c1, c2, c3]
    | cons b1 rest1 =>
      by_cases h1 : isCont b1 = true
      · right
        have hb1 := (isCont_iff b1).1 h1
        have e : decodeRune (b0 :: b1 :: rest1) = (b0 % 32 * 64 + b1 % 64, 2) := by
          simp [decodeRune, c1, c2, c3, h1]
        rw [e]
        have r1 : ¬ (b0 % 32 * 64 + b1 % 64 < 0x80) := by omega
        have r2 : b0 % 32 * 64 + b1 % 64 < 0x800 := by omega
        have e1 : 0xC0 + (b0 % 32 * 64 + b1 % 64) / 64 = b0 := by omega
        have e2 : 0x80 + (b0 % 32 * 64 + b1 % 64) % 64 = b1 := by omega
        simp only [encodeRune, r1, r2, if_true, if_false, e1, e2, validRune]
        refine ⟨by simp, by simp, by omega, by omega⟩
      · left; simp [decodeRune, c1, c2, c3, h1]
  by_cases c4 : b0 < 0xF0
  · match rest with
    | [] => left; simp [decodeRune, c1, c2, c3, c4]
    | [_] => left; simp [decodeRune, c1, c2, c3, c4]
    | b1 :: b2 :: rest2 =>
      by_cases h1 : (b1 < if b0 = 0xE0 then 0xA0 else 0x80) ∨ (if b0 = 0xED then 0x9F else 0xBF) < b1
      · left; simp [decodeRune, c1, c2, c3, c4, h1]
      by_cases h2 : isCont b2 = true
      · right
        have hb2 := (isCont_iff b2).1 h2
        have e : decodeRune (b0 :: b1 :: b2 :: rest2)
            = (b0 % 16 * 4096 + b1 % 64 * 64 + b2 % 64, 3) := by
          simp [decodeRune, c1, c2, c3, c4, h1, h2]
        rw [e]
        have hb1 : 0x80 ≤ b1 ∧ b1 ≤ 0xBF ∧ (b0 = 0xE0 → 0xA0 ≤ b1) ∧ (b0 = 0xED → b1 ≤ 0x9F) := by
          split_ifs at h1 <;> omega
        have r1 : ¬ (b0 % 16 * 4096 + b1 % 64 * 64 + b2 % 64 < 0x80) := by omega
        have r2 : ¬ (b0 % 16 * 4096 + b1 % 64 * 64 + b2 % 64 < 0x800) := by omega
        have r3 : ¬ (0xD800 ≤ b0 % 16 * 4096 + b1 % 64 * 64 + b2 % 64
            ∧ b0 % 16 * 4096 + b1 % 64 * 64 + b2 % 64 < 0xE000) := by omega
        have r4 : b0 % 16 * 4096 + b1 % 64 * 64 + b2 % 64 < 0x10000 := by omega
        have e1 : 0xE0 + (b0 % 16 * 4096 + b1 % 64 * 64 + b2 % 64) / 4096 = b0 := by omega
        have e2 : 0x80 + (b0 % 16 * 4096 + b1 % 64 * 64 + b2 % 64) / 64 % 64 = b1 := by omega
        have e3 : 0x80 + (b0 % 16 * 4096 + b1 % 64 * 64 + b2 % 64) % 64 = b2 := by omega
        simp only [encodeRune, r1, r2, r3, r4, if_true, if_false, e1, e2, e3, validRune]
        refine ⟨by simp, by simp, ?_, ?_⟩ <;> first | trivial | omega
      · left; simp [decodeRune, c1, c2, c3, c4, h1, h2]
  by_cases c5 : b0 < 0xF5
  · match rest with
    | [] => left; simp [decodeRune, c1, c2, c3, c4, c5]
    | [_] => left; simp [decodeRune, c1, c2, c3, c4, c5]
    | [_, _] => left; simp [decodeRune, c1, c2, c3, c4, c5]
    | b1 :: b2 :: b3 :: rest3 =>
      by_cases h1 : (b1 < if b0 = 0xF0 then 0x90 else 0x80) ∨ (if b0 = 0xF4 then 0x8F else 0xBF) < b1
      · left; simp [decodeRune, c1, c2, c3, c4, c5, h1]
      by_cases h2 : isCont b2 = true
      · by_cases h3 : isCont b3 = true
        · right
          have hb2 := (isCont_iff b2).1 h2
          have hb3 := (isCont_iff b3).1 h3
          have e : decodeRune (b0 :: b1 :: b2 :: b3 :: rest3)
              = (b0 % 8 * 262144 + b1 % 64 * 4096 + b2 % 64 * 64 + b3 % 64, 4) := by
            simp [decodeRune, c1, c2, c3, c4, c5, h1, h2, h3]
          rw [e]
          have hb1 : 0x80 ≤ b1 ∧ b1 ≤ 0xBF ∧ (b0 = 0xF0 → 0x90 ≤ b1) ∧ (b0 = 0xF4 → b1 ≤ 0x8F) := by
            split_ifs at h1 <;> omega
          have r1 : ¬ (b0 % 8 * 262144 + b1 % 64 * 4096 + b2 % 64 * 64 + b3 % 64 < 0x80) := by
            omega
          have r2 : ¬ (b0 % 8 * 262144 + b1 % 64 * 4096 + b2 % 64 * 64 + b3 % 64 < 0x800) := by
            omega
          have r3 : ¬ (0xD800 ≤ b0 % 8 * 262144 + b1 % 64 * 4096 + b2 % 64 * 64 + b3 % 64
              ∧ b0 % 8 * 262144 + b1 % 64 * 4096 + b2 % 64 * 64 + b3 % 64 < 0xE000) := by omega
          have r4 : ¬ (b0 % 8 * 262144 + b1 % 64 * 4096 + b2 % 64 * 64 + b3 % 64 < 0x10000) := by
            omega
          have r5 : b0 % 8 * 262144 + b1 % 64 * 4096 + b2 % 64 * 64 + b3 % 64 < 0x110000 := by
            omega
          have e1 : 0xF0 + (b0 % 8 * 262144 + b1 % 64 * 4096 + b2 % 64 * 64 + b3 % 64) / 262144
              = b0 := by omega
          have e2 : 0x80 + (b0 % 8 * 262144 + b1 % 64 * 4096 + b2 % 64 * 64 + b3 % 64) / 4096 % 64
              = b1 := by omega
          have e3 : 0x80 + (b0 % 8 * 262144 + b1 % 64 * 4096 + b2 % 64 * 64 + b3 % 64) / 64 % 64
              = b2 := by omega
          have e4 : 0x80 + (b0 % 8 * 262144 + b1 % 64 * 4096 + b2 % 64 * 64 + b3 % 64) % 64
              = b3 := by omega
          simp only [encodeRune, r1, r2, r3, r4, r5, if_true, if_false, e1, e2, e3, e4, validRune]
          refine ⟨by simp, by simp, ?_, ?_⟩ <;> trivial
        · left; simp [decodeRune, c1, c2, c3, c4, c5, h1, h2, h3]
      · left; simp [decodeRune, c1, c2, c3, c4, c5, h1, h2]
  · left; simp [decodeRune, c1, c2, c3, c4, c5]

/-- The encoding of a scalar value decodes to it. -/
theorem decodeRune_encodeRune (r : Nat) (h : validRune r) (rest : GoString) :
    decodeRune (encodeRune r ++ rest) = (r, (encodeRune r).length) := by
  have h0 := rangeAux_encodeRune r h rest
  have hpos := encodeRune_length_pos r
  obtain ⟨b0, tl, hb⟩ : ∃ b0 tl, encodeRune r = b0 :: tl := by
    cases he : encodeRune r with
    | nil => rw [he] at hpos; simp at hpos
    | cons b0 tl => exact ⟨b0, tl, rfl⟩
  rw [hb, List.cons_append, rangeAux] at h0
  have h1 : (decodeRune (b0 :: (tl ++ rest))).1 = r := by injection h0
  rcases decodeRune_cases b0 (tl ++ rest) with e | ⟨e1, e2, _⟩
  · rw [e] at h1
    have hr : r = RuneError := h1.symm
    rw [hr]
    simp [RuneError, encodeRune, decodeRune, isCont]
  · rw [hb, List.cons_append]
    rw [h1] at e2
    rw [← hb, ← e2]
    exact Prod.ext h1 rfl

/-! ## Trimming white space -/

theorem IsSpace_valid (r : Nat) (h : IsSpace r = true) : validRune r := by
  simp only [IsSpace, decide_eq_true_eq] at h
  unfold validRune
  omega

theorem IsSpace_RuneError : IsSpace RuneError = false := by decide

theorem decodeRune_size_pos (b0 : Nat) (rest : GoString) :
    1 ≤ (decodeRune (b0 :: rest)).2 := by
  rcases decodeRune_cases b0 rest with e | ⟨_, e2, _⟩
  · rw [e]
  · rw [e2]; exact encodeRune_length_pos _

theorem TrimLeftAux_skip : ∀ (k : Nat) (s : GoString), TrimLeftAux k s = TrimLeftAux 0 (s.drop k)
  | 0, s => by simp
  | k + 1, [] => by simp [TrimLeftAux]
  | k + 1, _ :: rest => by
    rw [TrimLeftAux, List.drop_succ_cons]
    exact TrimLeftAux_skip k rest

/-- One round of the trimming loop from the left. -/
theorem TrimLeftFunc_cons (b : Nat) (rest : GoString) :
    TrimLeftFunc (b :: rest)
      = if IsSpace (decodeRune (b :: rest)).1 = true then
          TrimLeftFunc ((b :: rest).drop (decodeRune (b :: rest)).2)
        else b :: rest := by
  have hpos := decodeRune_size_pos b rest
  unfold TrimLeftFunc
  rw [TrimLeftAux]
  split_ifs with h
  · rw [TrimLeftAux_skip]
    congr 1
    obtain ⟨m, hm⟩ : ∃ m, (decodeRune (b :: rest)).2 = m + 1 := ⟨_, (Nat.sub_add_cancel hpos).symm⟩
    rw [hm, List.drop_succ_cons]
    rfl
  · rfl

/-- What `TrimLeftFunc` removes is the encoding of white-space runes, and what it
leaves is empty or begins with a rune that is not white space. -/
theorem TrimLeftFunc_spec (s : GoString) :
    ∃ ws, (∀ r ∈ ws, IsSpace r = true) ∧ s = encodeRunes ws ++ TrimLeftFunc s
      ∧ (TrimLeftFunc s = [] ∨ IsSpace (decodeRune (TrimLeftFunc s)).1 = false) := by
  generalize hn : s.length = n
  induction n using Nat.strong_induction_on generalizing s with
  | _ n ih =>
    cases s with
    | nil => exact ⟨[], by simp, by simp [encodeRunes, TrimLeftFunc, TrimLeftAux], Or.inl rfl⟩
    | cons b rest =>
      rw [TrimLeftFunc_cons]
      by_cases hsp : IsSpace (decodeRune (b :: rest)).1 = true
      · rw [if_pos hsp]
        rcases decodeRune_cases b rest with e | ⟨e1, e2, _⟩
        · rw [e, IsSpace_RuneError] at hsp
          exact absurd hsp (by decide)
        · have hpos := decodeRune_size_pos b rest
          have hlen : ((b :: rest).drop (decodeRune (b :: rest)).2).length < n := by
            rw [← hn, List.length_drop]
            simp only [List.length_cons]
            omega
          obtain ⟨ws, hws, hs, hend⟩ := ih _ hlen _ rfl
          refine ⟨(decodeRune (b :: rest)).1 :: ws, ?_, ?_, hend⟩
          · intro r hr
            rcases List.mem_cons.1 hr with h | h
            · rw [h]; exact hsp
            · exact hws r h
          · rw [encodeRunes, List.append_assoc, ← hs, ← e1, List.take_append_drop]
      · rw [if_neg hsp]
        exact ⟨[], by simp, by simp [encodeRunes], Or.inr (by simpa using hsp)⟩

/-- A white-space rune found at the end of a string by `decodeLastRune` is there
with the bytes of its encoding. -/
theorem decodeLastRune_space (p : GoString)
    (h : IsSpace (decodeLastRune p).1 = true) :
    1 ≤ (decodeLastRune p).2 ∧ (decodeLastRune p).2 ≤ p.length
      ∧ p = p.take (p.length - (decodeLastRune p).2) ++ encodeRune (decodeLastRune p).1 := by
  unfold decodeLastRune at h ⊢
  cases hl : p.getLast? with
  | none =>
    rw [hl] at h
    simp only [IsSpace_RuneError] at h
    exact absurd h (by decide)
  | some b =>
    rw [hl] at h
    simp only at h ⊢
    have hne : p ≠ [] := by
      intro e; rw [e] at hl; simp at hl
    have hpos : 1 ≤ p.length := List.length_pos.2 hne
    by_cases hb : b < 0x80
    · rw [if_pos hb]
      refine ⟨le_refl 1, hpos, ?_⟩
      have e : encodeRune b = [b] := by simp [encodeRune, hb]
      simp only
      rw [e, ← List.dropLast_eq_take]
      exact (List.dropLast_append_getLast? b (by rw [hl]; rfl)).symm
    · rw [if_neg hb] at h ⊢
      by_cases hs : lastStart p + (decodeRune (p.drop (lastStart p))).2 ≠ p.length
      · rw [if_pos hs, IsSpace_RuneError] at h
        exact absurd h (by decide)
      · rw [if_neg hs] at h ⊢
        have hs2 : lastStart p + (decodeRune (p.drop (lastStart p))).2 = p.length := by
          by_contra hc; exact hs hc
        cases hd : p.drop (lastStart p) with
        | nil =>
          rw [hd] at h
          simp only [decodeRune, IsSpace_RuneError] at h
          exact absurd h (by decide)
        | cons b0 rest =>
          rw [hd] at h hs2
          rcases decodeRune_cases b0 rest with e | ⟨e1, e2, _⟩
          · rw [e, IsSpace_RuneError] at h
            exact absurd h (by decide)
          · have hp := decodeRune_size_pos b0 rest
            have hlen : (b0 :: rest).length = (decodeRune (b0 :: rest)).2 := by
              rw [← hd, List.length_drop]; omega
            refine ⟨hp, by omega, ?_⟩
            have e3 : p.length - (decodeRune (b0 :: rest)).2 = lastStart p := by omega
            rw [e3, ← e1, ← hlen, List.take_length, ← hd, List.take_append_drop]

/-- The loop of `TrimRightFunc`: what it removes is the encoding of white-space
runes, and what it leaves is empty or ends with a rune that is not white
space. -/
theorem TrimRightAux_spec (s : GoString) :
    ∀ (fuel i : Nat), i ≤ fuel → i ≤ s.length →
      ∃ ws, (∀ r ∈ ws, IsSpace r = true)
        ∧ s.take i = TrimRightAux s fuel i ++ encodeRunes ws
        ∧ (TrimRightAux s fuel i = []
          ∨ IsSpace (decodeLastRune (TrimRightAux s fuel i)).1 = false) := by
  intro fuel
  induction fuel with
  | zero =>
    intro i hi _
    have h0 : i = 0 := by omega
    subst h0
    exact ⟨[], by simp, by simp [TrimRightAux, encodeRunes], Or.inl (by simp [TrimRightAux])⟩
  | succ fuel ih =>
    intro i hi hlen
    rw [TrimRightAux]
    by_cases h0 : i = 0
    · subst h0
      exact ⟨[], by simp, by simp [encodeRunes], Or.inl (by simp)⟩
    · rw [if_neg h0]
      by_cases hsp : IsSpace (decodeLastRune (s.take i)).1 = true
      · rw [if_pos hsp]
        obtain ⟨h1, h2, h3⟩ := decodeLastRune_space (s.take i) hsp
        have hl : (s.take i).length = i := by rw [List.length_take]; omega
        rw [hl] at h2 h3
        have ht : (s.take i).take (i - (decodeLastRune (s.take i)).2)
            = s.take (i - (decodeLastRune (s.take i)).2) := by
          rw [List.take_take]; congr 1; omega
        rw [ht] at h3
        obtain ⟨ws, hws, hs, hend⟩ := ih (i - (decodeLastRune (s.take i)).2) (by omega) (by omega)
        refine ⟨ws ++ [(decodeLastRune (s.take i)).1], ?_, ?_, hend⟩
        · intro r hr
          rcases List.mem_append.1 hr with h | h
          · exact hws r h
          · rw [List.mem_singleton.1 h]; exact hsp
        · rw [encodeRunes_append, ← List.append_assoc, ← hs]
          simpa [encodeRunes] using h3
      · rw [if_neg hsp]
        exact ⟨[], by simp, by simp [encodeRunes], Or.inr (by simpa using hsp)⟩

theorem TrimRightFunc_spec (s : GoString) :
    ∃ ws, (∀ r ∈ ws, IsSpace r = true) ∧ s = TrimRightFunc s ++ encodeRunes ws
      ∧ (TrimRightFunc s = [] ∨ IsSpace (decodeLastRune (TrimRightFunc s)).1 = false) := by
  obtain ⟨ws, hws, hs, hend⟩ := TrimRightAux_spec s s.length s.length (le_refl _) (le_refl _)
  rw [List.take_length] at hs
  exact ⟨ws, hws, hs, hend⟩

theorem getD_append_at (init l : GoString) (k n : Nat) (h : n = init.length + k) :
    (init ++ l).getD n 0 = l.getD k 0 := by
  subst h
  rw [List.getD_append_right _ _ _ _ (Nat.le_add_right _ _)]
  congr 1
  omega

theorem lastStart_two (init : GoString) (a b : Nat) (ha : RuneStart a = true) :
    lastStart (init ++ [a, b]) = init.length := by
  have hl : (init ++ [a, b]).length = init.length + 2 := by simp
  have h2 : (init ++ [a, b]).getD (init.length + 2 - 2) 0 = a := by
    rw [getD_append_at init [a, b] 0 _ (by omega)]; rfl
  unfold lastStart
  rw [hl, h2, ha]
  simp

theorem lastStart_three (init : GoString) (a b c : Nat) (ha : RuneStart a = true)
    (hb : RuneStart b = false) :
    lastStart (init ++ [a, b, c]) = init.length := by
  have hl : (init ++ [a, b, c]).length = init.length + 3 := by simp
  have h2 : (init ++ [a, b, c]).getD (init.length + 3 - 2) 0 = b := by
    rw [getD_append_at init [a, b, c] 1 _ (by omega)]; rfl
  have h3 : (init ++ [a, b, c]).getD (init.length + 3 - 3) 0 = a := by
    rw [getD_append_at init [a, b, c] 0 _ (by omega)]; rfl
  unfold lastStart
  rw [hl, h2, h3, ha, hb]
  simp

theorem lastStart_four (init : GoString) (a b c d : Nat) (ha : RuneStart a = true)
    (hb : RuneStart b = false) (hc : RuneStart c = false) :
    lastStart (init ++ [a, b, c, d]) = init.length := by
  have hl : (init ++ [a, b, c, d]).length = init.length + 4 := by simp
  have h2 : (init ++ [a, b, c, d]).getD (init.length + 4 - 2) 0 = c := by
    rw [getD_append_at init [a, b, c, d] 2 _ (by omega)]; rfl
  have h3 : (init ++ [a, b, c, d]).getD (init.length + 4 - 3) 0 = b := by
    rw [getD_append_at init [a, b, c, d] 1 _ (by omega)]; rfl
  have h4 : (init ++ [a, b, c, d]).getD (init.length + 4 - 4) 0 = a := by
    rw [getD_append_at init [a, b, c, d] 0 _ (by omega)]; rfl
  unfold lastStart
  rw [hl, h2, h3, h4, ha, hb, hc]
  simp

theorem RuneStart_iff (b : Nat) : RuneStart b = true ↔ ¬ (0x80 ≤ b ∧ b ≤ 0xBF) := by
  simp [RuneStart, isCont]
  omega

theorem RuneStart_false_iff (b : Nat) : RuneStart b = false ↔ (0x80 ≤ b ∧ b ≤ 0xBF) := by
  simp [RuneStart, isCont]

/-- The last rune of a string that ends with the encoding of a scalar value is
that value. -/
theorem decodeLastRune_append_encodeRune (init : GoString) (r : Nat) (h : validRune r) :
    decodeLastRune (init ++ encodeRune r) = (r, (encodeRune r).length) := by
  have hdec := decodeRune_encodeRune r h []
  rw [List.append_nil] at hdec
  obtain ⟨h1, h2⟩ := h
  by_cases c1 : r < 0x80
  · have e : encodeRune r = [r] := by simp [encodeRune, c1]
    rw [e]
    simp [decodeLastRune, c1]
  have key : ∀ (start : Nat), lastStart (init ++ encodeRune r) = init.length →
      (∀ b ∈ (init ++ encodeRune r).getLast?, ¬ b < 0x80) →
      decodeLastRune (init ++ encodeRune r) = (r, (encodeRune r).length) := by
    intro _ hst hlast
    have hpos := encodeRune_length_pos r
    unfold decodeLastRune
    cases hl : (init ++ encodeRune r).getLast? with
    | none =>
      have hnil : init ++ encodeRune r = [] := List.getLast?_eq_none_iff.1 hl
      have h0 : encodeRune r = [] := (List.append_eq_nil.1 hnil).2
      rw [h0] at hpos
      simp at hpos
    | some b =>
      have hb := hlast b (by rw [hl]; rfl)
      simp only [if_neg hb, hst, List.drop_left, hdec]
      simp
  by_cases c2 : r < 0x800
  · have e : encodeRune r = [0xC0 + r / 64, 0x80 + r % 64] := by simp [encodeRune, c1, c2]
    apply key 0
    · rw [e]; exact lastStart_two init _ _ ((RuneStart_iff _).2 (by omega))
    · rw [e]; intro b hb; simp at hb; omega
  by_cases c4 : r < 0x10000
  · have e : encodeRune r = [0xE0 + r / 4096, 0x80 + r / 64 % 64, 0x80 + r % 64] := by
      simp [encodeRune, c1, c2, h2, c4]
    apply key 0
    · rw [e]
      exact lastStart_three init _ _ _ ((RuneStart_iff _).2 (by omega))
        ((RuneStart_false_iff _).2 (by omega))
    · rw [e]; intro b hb; simp at hb; omega
  · have e : encodeRune r
        = [0xF0 + r / 262144, 0x80 + r / 4096 % 64, 0x80 + r / 64 % 64, 0x80 + r % 64] := by
      simp [encodeRune, c1, c2, h2, c4, h1]
    apply key 0
    · rw [e]
      exact lastStart_four init _ _ _ _ ((RuneStart_iff _).2 (by omega))
        ((RuneStart_false_iff _).2 (by omega)) ((RuneStart_false_iff _).2 (by omega))
    · rw [e]; intro b hb; simp at hb; omega

/-- The result of `TrimSpace`: the string is white space, the result, white
space; the result neither begins nor ends with the encoding of a white-space
rune. -/
theorem TrimSpace_spec (a : GoString) :
    (∃ ws1 ws2, (∀ r ∈ ws1, IsSpace r = true) ∧ (∀ r ∈ ws2, IsSpace r = true)
        ∧ a = encodeRunes ws1 ++ TrimSpace a ++ encodeRunes ws2)
      ∧ (∀ r rest, IsSpace r = true → TrimSpace a ≠ encodeRune r ++ rest)
      ∧ (∀ r init, IsSpace r = true → TrimSpace a ≠ init ++ encodeRune r) := by
  obtain ⟨ws1, hws1, hs1, hend1⟩ := TrimLeftFunc_spec a
  obtain ⟨ws2, hws2, hs2, hend2⟩ := TrimRightFunc_spec (TrimLeftFunc a)
  refine ⟨⟨ws1, ws2, hws1, hws2, ?_⟩, ?_, ?_⟩
  · unfold TrimSpace
    rw [List.append_assoc, ← hs2]
    exact hs1
  · intro r rest hr he
    have hv := IsSpace_valid r hr
    have hpos := encodeRune_length_pos r
    unfold TrimSpace at he
    rw [he, List.append_assoc] at hs2
    rcases hend1 with e | e
    · rw [e] at hs2
      have h0 := congrArg List.length hs2
      simp at h0
      omega
    · rw [hs2, decodeRune_encodeRune r hv, hr] at e
      exact absurd e (by decide)
  · intro r init hr he
    have hv := IsSpace_valid r hr
    have hpos := encodeRune_length_pos r
    unfold TrimSpace at he
    rcases hend2 with e | e
    · rw [e] at he
      have h0 := congrArg List.length he
      simp at h0
      omega
    · rw [he, decodeLastRune_append_encodeRune init r hv, hr] at e
      exact absurd e (by decide)

/-! ## Query-text resolution -/

theorem name_too_many : name ++ lit ": too many arguments\n" = lit "gojq: too many arguments\n" := by
  decide

/-- C11. Query-text resolution: with the flags parsed and `-v` not given, `run`
goes on with the identity query `.` for no positional argument and with the
single argument trimmed of leading and trailing white space for one; for more
than one it returns 1 with exactly `gojq: too many arguments` and a newline
written to the error stream, whatever the parser, the decoder, the evaluator
and the encoder are, the input and output streams untouched. -/
theorem run_query_text {Query Value : Type} (env : Env Query Value) (c : cli)
    (args rest : List GoString) (hflag : env.flagParse c args = .parsed false rest) :
    (rest = [] → run env c args = runWithQuery env c (lit "."))
    ∧ (∀ a, rest = [a] →
        run env c args = runWithQuery env c (TrimSpace a)
        ∧ (∃ ws1 ws2, (∀ r ∈ ws1, IsSpace r = true) ∧ (∀ r ∈ ws2, IsSpace r = true)
            ∧ a = encodeRunes ws1 ++ TrimSpace a ++ encodeRunes ws2)
        ∧ (∀ r tl, IsSpace r = true → TrimSpace a ≠ encodeRune r ++ tl)
        ∧ (∀ r init, IsSpace r = true → TrimSpace a ≠ init ++ encodeRune r))
    ∧ (2 ≤ rest.length →
        run env c args = some (writeErr c (lit "gojq: too many arguments\n"), 1)
        ∧ (writeErr c (lit "gojq: too many arguments\n")).outStream = c.outStream
        ∧ (writeErr c (lit "gojq: too many arguments\n")).inStream = c.inStream
        ∧ ∀ env2 : Env Query Value, env2.flagParse c args = .parsed false rest →
            run env2 c args = run env c args) := by
  have hmany : ∀ env1 : Env Query Value, env1.flagParse c args = .parsed false rest →
      2 ≤ rest.length →
      run env1 c args = some (writeErr c (lit "gojq: too many arguments\n"), 1) := by
    intro env1 h1 hlen
    unfold run
    rw [h1]
    match rest, hlen with
    | _ :: _ :: _, _ => simp [name_too_many, exitCodeErr]
  refine ⟨?_, ?_, ?_⟩
  · intro hr
    subst hr
    unfold run
    rw [hflag]
    simp
  · intro a hr
    subst hr
    obtain ⟨h1, h2, h3⟩ := TrimSpace_spec a
    refine ⟨?_, h1, h2, h3⟩
    unfold run
    rw [hflag]
    simp
  · intro hlen
    refine ⟨hmany env hflag hlen, rfl, rfl, ?_⟩
    intro env2 h2
    rw [hmany env hflag hlen, hmany env2 h2 hlen]

/-- C11, on two positional arguments. -/
theorem run_query_text_witness :
    run sampleEnv cli0 [lit ".", lit ".foo"]
      = some (writeErr cli0 (lit "gojq: too many arguments\n"), 1) :=
  ((run_query_text sampleEnv cli0 [lit ".", lit ".foo"] [lit ".", lit ".foo"] rfl).2.2
    (by decide)).1

/-! ## Failure is terminal -/

theorem name_colon (text : GoString) :
    name ++ (lit ": " ++ text) = lit "gojq: " ++ text := by
  have h : name ++ lit ": " = lit "gojq: " := by decide
  rw [← List.append_assoc, h]

theorem name_invalid_query (text : GoString) :
    name ++ (lit ": invalid query: " ++ text)
      = lit "gojq: " ++ (lit "invalid query: " ++ text) := by
  have h : name ++ lit ": invalid query: " = lit "gojq: " ++ lit "invalid query: " := by decide
  rw [← List.append_assoc, h, List.append_assoc]

theorem name_invalid_json (text : GoString) :
    name ++ (lit ": invalid json: " ++ text)
      = lit "gojq: " ++ (lit "invalid json: " ++ text) := by
  have h : name ++ lit ": invalid json: " = lit "gojq: " ++ lit "invalid json: " := by decide
  rw [← List.append_assoc, h, List.append_assoc]

/-- With the flags parsed and `-v` not given, `run` is the pipeline on the
resolved query text. -/
theorem run_resolved {Query Value : Type} (env : Env Query Value) (c : cli)
    (args rest : List GoString) (arg : GoString)
    (hflag : env.flagParse c args = .parsed false rest) (harg : queryTextOf rest = some arg) :
    run env c args = runWithQuery env c arg := by
  unfold run
  rw [hflag]
  match rest, harg with
  | [], h => simp only [queryTextOf, Option.some.injEq] at h; subst h; simp
  | [a], h => simp only [queryTextOf, Option.some.injEq] at h; subst h; simp

/-- The exit status of the pipeline is 0 or 1. -/
theorem runWithQuery_status {Query Value : Type} (env : Env Query Value) (c c' : cli)
    (arg : GoString) (code : Int) (h : runWithQuery env c arg = some (c', code)) :
    code = 0 ∨ code = 1 := by
  unfold runWithQuery at h
  split at h
  · split at h
    · cases h; exact Or.inr rfl
    · cases h
  · simp only at h
    split at h
    · split at h
      · cases h; exact Or.inr rfl
      · cases h
    · split at h
      · cases h; exact Or.inr rfl
      · split at h
        · cases h; exact Or.inr rfl
        · cases h; exact Or.inl rfl

/-- A failing parser: the summary is written, then the positional diagnostic if
there is one, and the status is 1. -/
theorem runWithQuery_parse_error {Query Value : Type} (env : Env Query Value) (c : cli)
    (arg : GoString) (err : GoError) (hp : env.Parse arg = .error err)
    (hcol : ∀ Line Column, err.kind = .lexerError Line Column →
      0 ≤ 3 + Column ∧ 3 + Column ≤ (env.maxLen : Int) ∧ 3 + Column < 2 ^ 63) :
    ∃ c', runWithQuery env c arg = some (c', exitCodeErr) ∧ c'.outStream = c.outStream
      ∧ ∃ text, c'.errStream = c.errStream ++ (lit "gojq: " ++ text) := by
  obtain ⟨c1, h1, h2⟩ := printQueryParseError_total env.maxLen
    (writeErr c (name ++ lit ": invalid query: " ++ env.Quote arg ++ lit "\n")) arg err hcol
  refine ⟨c1, ?_, ?_⟩
  · unfold runWithQuery
    rw [hp]
    simp only [h1]
  · rcases h2 with e | ⟨line, n, _, e⟩
    · rw [e]
      refine ⟨rfl, lit "invalid query: " ++ (env.Quote arg ++ lit "\n"), ?_⟩
      simp only [writeErr, List.append_assoc, name_invalid_query]
    · rw [e]
      refine ⟨rfl, lit "invalid query: " ++ (env.Quote arg ++ lit "\n") ++ diagnostic line n, ?_⟩
      simp only [writeErr, List.append_assoc, name_invalid_query]

/-- A failing decoder: the summary is written, then the positional diagnostic if
there is one, and the status is 1. -/
theorem runWithQuery_decode_error {Query Value : Type} (env : Env Query Value) (c : cli)
    (arg : GoString) (q : Query) (err : GoError) (hp : env.Parse arg = .ok q)
    (hd : (env.Decode c.inStream).2 = .error err) :
    ∃ c', runWithQuery env c arg = some (c', exitCodeErr) ∧ c'.outStream = c.outStream
      ∧ ∃ text, c'.errStream = c.errStream ++ (lit "gojq: " ++ text) := by
  obtain ⟨c1, h1, h2⟩ := printJSONError_total env.RuneWidth
    (writeErr (readIn c (env.Decode c.inStream).1)
      (name ++ lit ": invalid json: " ++ err.Error ++ lit "\n"))
    (c.inStream.take (env.Decode c.inStream).1) err
  refine ⟨c1, ?_, ?_⟩
  · unfold runWithQuery
    rw [hp]
    simp only [hd, h1]
  · rcases h2 with e | ⟨line, n, _, e⟩
    · rw [e]
      refine ⟨rfl, lit "invalid json: " ++ (err.Error ++ lit "\n"), ?_⟩
      simp only [writeErr, readIn, List.append_assoc, name_invalid_json]
    · rw [e]
      refine ⟨rfl, lit "invalid json: " ++ (err.Error ++ lit "\n") ++ diagnostic line n, ?_⟩
      simp only [writeErr, readIn, List.append_assoc, name_invalid_json]

/-- The exit status of `run` is 0 or 1. -/
theorem run_status {Query Value : Type} (env : Env Query Value) (c c' : cli)
    (args : List GoString) (code : Int) (h : run env c args = some (c', code)) :
    code = 0 ∨ code = 1 := by
  unfold run at h
  split at h
  · cases h; exact Or.inl rfl
  · cases h; exact Or.inr rfl
  · split at h
    · cases h; exact Or.inl rfl
    · split at h
      · exact runWithQuery_status env c c' _ code h
      · exact runWithQuery_status env c c' _ code h
      · cases h; exact Or.inr rfl

/-- C12 as stated fails: a parser that fails with a lexer error at line 1,
column -4 makes `run` write the summary and then fail at run time in
`printQueryParseError` (in `strings.Repeat`), so no exit status is
returned. -/
theorem run_parse_error_negative_column :
    run negativeColumnEnv cli0 [lit "abc"] = none := by
  decide

/-- C12, amended. `run` only ever returns 0 or 1. With the flags parsed, `-v`
not given and at most one positional argument: when the query parser fails
(with an error that is not a lexer error, or whose column makes `3 + column` a
count `strings.Repeat` accepts: a non-negative Go `int` not above the length
the runtime can allocate), when the JSON decoder fails, or when the evaluator
fails, `run` returns 1, the output stream is as it was, and the text written to
the error stream begins with `gojq: `; when every stage succeeds `run` returns
0 and the error stream is as it was. -/
theorem run_failure_terminal {Query Value : Type} :
    (∀ (env : Env Query Value) (c c' : cli) (args : List GoString) (code : Int),
        run env c args = some (c', code) → code = 0 ∨ code = 1)
    ∧ (∀ (env : Env Query Value) (c : cli) (args rest : List GoString) (arg : GoString),
        env.flagParse c args = .parsed false rest → queryTextOf rest = some arg →
        (∀ err, env.Parse arg = .error err →
          (∀ Line Column, err.kind = .lexerError Line Column →
            0 ≤ 3 + Column ∧ 3 + Column ≤ (env.maxLen : Int) ∧ 3 + Column < 2 ^ 63) →
          ∃ c', run env c args = some (c', 1) ∧ c'.outStream = c.outStream
            ∧ ∃ text, c'.errStream = c.errStream ++ (lit "gojq: " ++ text))
        ∧ (∀ q err, env.Parse arg = .ok q → (env.Decode c.inStream).2 = .error err →
          ∃ c', run env c args = some (c', 1) ∧ c'.outStream = c.outStream
            ∧ ∃ text, c'.errStream = c.errStream ++ (lit "gojq: " ++ text))
        ∧ (∀ q v err, env.Parse arg = .ok q → (env.Decode c.inStream).2 = .ok v →
          env.Run q v = .error err →
          ∃ c', run env c args = some (c', 1) ∧ c'.outStream = c.outStream
            ∧ ∃ text, c'.errStream = c.errStream ++ (lit "gojq: " ++ text))
        ∧ (∀ q v v1, env.Parse arg = .ok q → (env.Decode c.inStream).2 = .ok v →
          env.Run q v = .ok v1 → (env.Encode v1).2 = none →
          ∃ c', run env c args = some (c', 0) ∧ c'.errStream = c.errStream)) := by
  refine ⟨run_status, ?_⟩
  intro env c args rest arg hflag harg
  rw [run_resolved env c args rest arg hflag harg]
  refine ⟨?_, ?_, ?_, ?_⟩
  · intro err hp hcol
    exact runWithQuery_parse_error env c arg err hp hcol
  · intro q err hp hd
    exact runWithQuery_decode_error env c arg q err hp hd
  · intro q v err hp hd hr
    refine ⟨writeErr (readIn c (env.Decode c.inStream).1)
      (name ++ lit ": " ++ err.Error ++ lit "\n"), ?_, rfl, err.Error ++ lit "\n", ?_⟩
    · unfold runWithQuery
      rw [hp]
      simp only [hd, hr]
      rfl
    · simp only [writeErr, readIn, List.append_assoc, name_colon]
  · intro q v v1 hp hd hr he
    refine ⟨writeOut (readIn c (env.Decode c.inStream).1) (env.Encode v1).1, ?_, rfl⟩
    unfold runWithQuery
    rw [hp]
    simp only [hd, hr, he]
    rfl

/-- C12 amended, on the test "invalid query": the parser fails on `abc` at line
1, column 1. -/
theorem run_failure_terminal_witness :
    ∃ c', run sampleEnv cli0 [lit "abc"] = some (c', 1) ∧ c'.outStream = cli0.outStream
      ∧ ∃ text, c'.errStream = cli0.errStream ++ (lit "gojq: " ++ text) :=
  (run_failure_terminal.2 sampleEnv cli0 [lit "abc"] [lit "abc"] (lit "abc") rfl
    (by decide)).1 (lexerErrorAt (lit "unexpected token") 1 1) rfl
    (by intro Line Column h; cases h; decide)

/-! ## The byte counter -/

theorem rangeAux_skip : ∀ (k : Nat) (s : GoString), rangeAux k s = rangeAux 0 (s.drop k)
  | 0, s => by simp
  | k + 1, [] => by simp [rangeAux]
  | k + 1, _ :: rest => by
    rw [rangeAux, List.drop_succ_cons]
    exact rangeAux_skip k rest

theorem rangeSizesAux_skip :
    ∀ (k : Nat) (s : GoString), rangeSizesAux k s = rangeSizesAux 0 (s.drop k)
  | 0, s => by simp
  | k + 1, [] => by simp [rangeSizesAux]
  | k + 1, _ :: rest => by
    rw [rangeSizesAux, List.drop_succ_cons]
    exact rangeSizesAux_skip k rest

/-- One round of the `range` loop. -/
theorem rangeString_cons (b : Nat) (rest : GoString) :
    rangeString (b :: rest)
      = (decodeRune (b :: rest)).1
        :: rangeString ((b :: rest).drop (decodeRune (b :: rest)).2) := by
  have hpos := decodeRune_size_pos b rest
  obtain ⟨m, hm⟩ : ∃ m, (decodeRune (b :: rest)).2 = m + 1 := ⟨_, (Nat.sub_add_cancel hpos).symm⟩
  unfold rangeString
  rw [rangeAux, rangeAux_skip, hm, List.drop_succ_cons]
  rfl

theorem rangeSizes_cons (b : Nat) (rest : GoString) :
    rangeSizes (b :: rest)
      = (decodeRune (b :: rest)).2
        :: rangeSizes ((b :: rest).drop (decodeRune (b :: rest)).2) := by
  have hpos := decodeRune_size_pos b rest
  obtain ⟨m, hm⟩ : ∃ m, (decodeRune (b :: rest)).2 = m + 1 := ⟨_, (Nat.sub_add_cancel hpos).symm⟩
  unfold rangeSizes
  rw [rangeSizesAux, rangeSizesAux_skip, hm, List.drop_succ_cons]
  rfl

/-- On well-formed UTF-8 the byte counter of the scan is the number of bytes of
the input consumed so far. -/
theorem scanCounters_valid (rs : List Nat) (h : ∀ r ∈ rs, validRune r) :
    ∀ (start : Nat),
      scanCounters (rangeString (encodeRunes rs)) (start : Int)
        = (endOffsets (rangeSizes (encodeRunes rs)) start).map (fun (n : Nat) => (n : Int)) := by
  induction rs with
  | nil => intro start; rfl
  | cons r rs ih =>
    intro start
    have hr : validRune r := h r (List.mem_cons_self r rs)
    have hrs : ∀ x ∈ rs, validRune x := fun x hx => h x (List.mem_cons_of_mem r hx)
    have hpos := encodeRune_length_pos r
    obtain ⟨b0, tl, hb⟩ : ∃ b0 tl, encodeRune r = b0 :: tl := by
      cases he : encodeRune r with
      | nil => rw [he] at hpos; simp at hpos
      | cons b0 tl => exact ⟨b0, tl, rfl⟩
    have hd := decodeRune_encodeRune r hr (encodeRunes rs)
    rw [encodeRunes]
    rw [hb, List.cons_append] at hd ⊢
    rw [rangeString_cons, rangeSizes_cons, hd]
    have hdrop : (b0 :: (tl ++ encodeRunes rs)).drop (b0 :: tl).length = encodeRunes rs := by
      rw [← List.cons_append, List.drop_left]
    simp only [hdrop, scanCounters, endOffsets, List.map_cons]
    rw [← hb]
    have e : (start : Int) + ((encodeRune r).length : Int)
        = ((start + (encodeRune r).length : Nat) : Int) := by push_cast; rfl
    rw [e, ih hrs]

/-- C13 fails on the code: for the input consisting of the one invalid byte
`0xFF` the scan reads the replacement character and adds 3 to the byte
counter, while one byte of the input has been consumed. With the decoder's
offset 1 the column stays 0 and the caret follows 3 spaces, one column left of
the character; for the one-byte input `x` it follows 4 spaces. -/
theorem scan_counter_invalid_byte :
    rangeString [0xFF] = [RuneError]
      ∧ scanCounters (rangeString [0xFF]) 0 = [3]
      ∧ consumedOffsets [0xFF] = [1]
      ∧ printJSONError sampleWidth cli0 [0xFF] (syntaxErrorAt (lit "invalid character") 1)
        = some (writeErr cli0 (diagnostic [0xEF, 0xBF, 0xBD] 3))
      ∧ printJSONError sampleWidth cli0 (lit "x") (syntaxErrorAt (lit "invalid character") 1)
        = some (writeErr cli0 (diagnostic (lit "x") 4)) := by
  decide

/-! ## Text after a terminator -/

/-- Decoding a rune does not look past an ASCII byte: what follows the byte has
no influence, and the rune ends before it. -/
theorem decodeRune_append_ascii (b : Nat) (rest R : GoString) (t : Nat) (ht : t < 0x80) :
    decodeRune (b :: (rest ++ t :: R)) = decodeRune (b :: rest)
      ∧ (decodeRune (b :: rest)).2 ≤ rest.length + 1 := by
  have hc : isCont t = false := by simp [isCont]; omega
  have hlo : ∀ (p : Prop) [Decidable p], t < (if p then 0xA0 else 0x80) := by
    intro p _; split_ifs <;> omega
  have hlo4 : ∀ (p : Prop) [Decidable p], t < (if p then 0x90 else 0x80) := by
    intro p _; split_ifs <;> omega
  by_cases c1 : b < 0x80
  · simp [decodeRune, c1]
  by_cases c2 : b < 0xC2
  · simp [decodeRune, c1, c2]
  by_cases c3 : b < 0xE0
  · rcases rest with _ | ⟨x, rest1⟩
    · simp [decodeRune, c1, c2, c3, hc]
    · simp only [decodeRune, c1, c2, c3, List.cons_append, if_true, if_false, List.length_cons,
        true_and]
      split_ifs <;> first | contradiction | simp
  by_cases c4 : b < 0xF0
  · rcases rest with _ | ⟨x, _ | ⟨y, rest2⟩⟩
    · rcases R with _ | ⟨r1, R1⟩
      · simp [decodeRune, c1, c2, c3, c4]
      · simp [decodeRune, c1, c2, c3, c4, hlo]
    · simp only [decodeRune, c1, c2, c3, c4, List.cons_append, List.nil_append, hc, if_false]
      split_ifs <;> first | contradiction | simp
    · simp only [decodeRune, c1, c2, c3, c4, List.cons_append, if_true, if_false,
        List.length_cons, true_and]
      split_ifs <;> first | contradiction | simp
  by_cases c5 : b < 0xF5
  · rcases rest with _ | ⟨x, _ | ⟨y, _ | ⟨z, rest3⟩⟩⟩
    · rcases R with _ | ⟨r1, _ | ⟨r2, R2⟩⟩
      · simp [decodeRune, c1, c2, c3, c4, c5]
      · simp [decodeRune, c1, c2, c3, c4, c5]
      · simp [decodeRune, c1, c2, c3, c4, c5, hlo4]
    · rcases R with _ | ⟨r1, R1⟩
      · simp [decodeRune, c1, c2, c3, c4, c5]
      · simp only [decodeRune, c1, c2, c3, c4, c5, List.cons_append, List.nil_append, hc,
          if_false]
        split_ifs <;> first | contradiction | simp
    · simp only [decodeRune, c1, c2, c3, c4, c5, List.cons_append, List.nil_append, hc,
        if_false]
      split_ifs <;> first | contradiction | simp
    · simp only [decodeRune, c1, c2, c3, c4, c5, List.cons_append, if_true, if_false,
        List.length_cons, true_and]
      split_ifs <;> first | contradiction | simp
  · simp [decodeRune, c1, c2, c3, c4, c5]

/-- The runes of a text followed by an ASCII byte and more text: those of the
text, the byte, those of the rest. -/
theorem rangeString_append_ascii (t : Nat) (ht : t < 0x80) (R : GoString) :
    ∀ (A : GoString), rangeString (A ++ t :: R) = rangeString A ++ t :: rangeString R := by
  intro A
  generalize hn : A.length = n
  induction n using Nat.strong_induction_on generalizing A with
  | _ n ih =>
    cases A with
    | nil =>
      rw [List.nil_append, rangeString_cons]
      simp [decodeRune, ht, rangeString, rangeAux]
    | cons b rest =>
      obtain ⟨h1, h2⟩ := decodeRune_append_ascii b rest R t ht
      have hpos := decodeRune_size_pos b rest
      rw [List.cons_append, rangeString_cons, rangeString_cons b rest, h1]
      have hd : (b :: (rest ++ t :: R)).drop (decodeRune (b :: rest)).2
          = (b :: rest).drop (decodeRune (b :: rest)).2 ++ t :: R := by
        rw [← List.cons_append, List.drop_append_of_le_length]
        simpa using h2
      have hlen : ((b :: rest).drop (decodeRune (b :: rest)).2).length < n := by
        rw [← hn, List.length_drop]
        simp only [List.length_cons]
        omega
      rw [hd, ih _ hlen _ rfl, List.cons_append]

/-- The byte counter of the scan never falls behind the bytes of the input. -/
theorem length_le_byteLen_rangeString :
    ∀ (A : GoString), A.length ≤ byteLen (rangeString A) := by
  intro A
  generalize hn : A.length = n
  induction n using Nat.strong_induction_on generalizing A with
  | _ n ih =>
    cases A with
    | nil => simp at hn; omega
    | cons b rest =>
      have hpos := decodeRune_size_pos b rest
      have hlen : ((b :: rest).drop (decodeRune (b :: rest)).2).length < n := by
        rw [← hn, List.length_drop]
        simp only [List.length_cons]
        omega
      have h := ih _ hlen _ rfl
      rw [List.length_drop] at h
      rw [rangeString_cons, byteLen_cons, ← hn]
      have hsize : (decodeRune (b :: rest)).2 ≤ (encodeRune (decodeRune (b :: rest)).1).length := by
        rcases decodeRune_cases b rest with e | ⟨_, e2, _⟩
        · rw [e]; exact encodeRune_length_pos _
        · rw [← e2]
      omega

theorem isTerminator_ascii (t : Nat) (ht : isTerminator t) : t < 0x80 := by
  unfold isTerminator at ht
  omega

theorem encodeRune_terminator (t : Nat) (ht : isTerminator t) : (encodeRune t).length = 1 := by
  have h := isTerminator_ascii t ht
  simp [encodeRune, h]

/-- A terminator that ends at or after the fault offset ends the scan: what
follows it is never read. -/
theorem scan_ends_at_terminator (w : Nat → Nat) (k : Int) (t : Nat) (ht : isTerminator t)
    (X Y : List Nat) :
    ∀ (rs : List Nat) (s : GoString) (i j : Int), k ≤ i + (byteLen rs : Int) + 1 →
      scan w k (rs ++ t :: X) s i j = scan w k (rs ++ t :: Y) s i j := by
  have ht0 : t = 0x0A ∨ t = 0x0D := ht
  have hlt := encodeRune_terminator t ht
  intro rs
  induction rs with
  | nil =>
    intro s i j hk
    simp only [byteLen_nil, Nat.cast_zero, add_zero] at hk
    simp only [List.nil_append, scan, hlt, ht0, if_true, Nat.cast_one]
    have h : ¬ (¬ (i + 1 = k) ∧ ¬ (i + 1 > k)) := by omega
    split_ifs <;> first | rfl | omega
  | cons r rs ih =>
    intro s i j hk
    rw [byteLen_cons] at hk
    push_cast at hk
    simp only [List.cons_append, scan]
    split_ifs <;> first | rfl | exact ih _ _ _ (by omega)

/-- C15. Independence from text after the fault line: for every text `A`,
terminator `t` and offset `k ≤ byteLength(A) + 1`, the outcome of
`printJSONError` on `A ++ [t] ++ R` for a syntax error at offset `k` is the
same for every text `R`. -/
theorem printJSONError_independent_of_rest (w : Nat → Nat) (c : cli) (A R R' : GoString)
    (t : Nat) (err : GoError) (k : Int) (ht : isTerminator t)
    (hkind : err.kind = .syntaxError k) (herr : err.Error ≠ lit "unexpected EOF")
    (hk : k ≤ (A.length : Int) + 1) :
    printJSONError w c (A ++ t :: R) err = printJSONError w c (A ++ t :: R') err := by
  have hlt := isTerminator_ascii t ht
  have hlen := length_le_byteLen_rangeString A
  rw [printJSONError_syntaxError w c _ err k hkind herr,
    printJSONError_syntaxError w c _ err k hkind herr,
    rangeString_append_ascii t hlt R A, rangeString_append_ascii t hlt R' A,
    scan_ends_at_terminator w k t ht (rangeString R) (rangeString R') (rangeString A) [] 0 0
      (by omega)]

/-- C15, on the text of the test "invalid json: string literal" with the
offset 19: the closing brace after the newline can be left out. -/
theorem printJSONError_independent_of_rest_witness :
    printJSONError sampleWidth cli0 (lit "\x7b\n  \"いろは\": \"" ++ 0x0A :: lit "\x7d")
        (syntaxErrorAt (lit "invalid character") 19)
      = printJSONError sampleWidth cli0 (lit "\x7b\n  \"いろは\": \"" ++ 0x0A :: [])
        (syntaxErrorAt (lit "invalid character") 19) :=
  printJSONError_independent_of_rest sampleWidth cli0 (lit "\x7b\n  \"いろは\": \"")
    (lit "\x7d") [] 0x0A (syntaxErrorAt (lit "invalid character") 19) 19
    (by decide) rfl (by decide) (by decide)

/-! ## Shift over preceding lines -/

/-- Moving the fault offset and the byte counter by the same amount leaves the
scan as it is. -/
theorem scan_shift (w : Nat → Nat) (k d : Int) :
    ∀ (rs : List Nat) (s : GoString) (i j : Int),
      scan w (k + d) rs s (i + d) j = scan w k rs s i j := by
  intro rs
  induction rs with
  | nil => intro s i j; rfl
  | cons r rs ih =>
    intro s i j
    have e : i + d + ((encodeRune r).length : Int) = i + ((encodeRune r).length : Int) + d := by
      omega
    simp only [scan, e, add_le_add_iff_right, add_left_inj, gt_iff_lt, add_lt_add_iff_right, ih]

/-- On well-formed UTF-8 before the newline the shift holds: the diagnostic for
`P ++ "\n" ++ T` at offset `k + byteLength(P) + 1` is the one for `T` at offset
`k`, for every `k ≥ 1` and every text `T`. -/
theorem printJSONError_shift_valid (w : Nat → Nat) (c : cli) (ps : List Nat) (T : GoString)
    (err err' : GoError) (k : Int) (hvalid : ∀ r ∈ ps, validRune r) (hk : 1 ≤ k)
    (hkind : err.kind = .syntaxError (k + (byteLen ps : Int) + 1))
    (herr : err.Error ≠ lit "unexpected EOF")
    (hkind' : err'.kind = .syntaxError k) (herr' : err'.Error ≠ lit "unexpected EOF") :
    printJSONError w c (encodeRunes ps ++ 0x0A :: T) err = printJSONError w c T err' := by
  have hnl : isTerminator 0x0A := Or.inl rfl
  have hb : byteLen (ps ++ [0x0A]) = byteLen ps + 1 := by
    rw [byteLen_append, byteLen_cons, byteLen_nil]; rfl
  rw [printJSONError_syntaxError w c _ err _ hkind herr,
    printJSONError_syntaxError w c _ err' _ hkind' herr',
    rangeString_append_ascii 0x0A (by omega) T, rangeString_encodeRunes ps hvalid,
    scan_skip w _ (rangeString T) 0x0A hnl ps [] 0 0 (by rw [hb]; push_cast; omega), hb]
  have e : (0 : Int) + ((byteLen ps + 1 : Nat) : Int) = 0 + ((byteLen ps : Int) + 1) := by
    push_cast; rfl
  have e2 : k + (byteLen ps : Int) + 1 = k + ((byteLen ps : Int) + 1) := by omega
  rw [e, e2, scan_shift]

/-- C14 fails on the code when the text before the newline holds an invalid
byte: for `P` the bytes of `["\xff",` (5 bytes), `T = x]` and `k = 1`, the
diagnostic for `P ++ "\n" ++ T` at offset `1 + 5 + 1` shows the line of `P`
with 8 spaces before the caret, while the diagnostic for `T` at offset 1 shows
`x]` with 4 spaces. -/
theorem printJSONError_shift_invalid_byte :
    printJSONError sampleWidth cli0 ([0x5B, 0x22, 0xFF, 0x22, 0x2C] ++ 0x0A :: lit "x]")
        (syntaxErrorAt (lit "invalid character") (1 + 5 + 1))
      = some (writeErr cli0 (diagnostic [0x5B, 0x22, 0xEF, 0xBF, 0xBD, 0x22, 0x2C] 8))
    ∧ printJSONError sampleWidth cli0 (lit "x]") (syntaxErrorAt (lit "invalid character") 1)
      = some (writeErr cli0 (diagnostic (lit "x]") 4)) := by
  decide

/-! ## The rendered line -/

theorem encodeRune_ne_cr (r : Nat) (h : r ≠ 0x0D) : 0x0D ∉ encodeRune r := by
  unfold encodeRune
  split_ifs <;> simp <;> omega

theorem encodeRunes_no_terminator (rs : List Nat) (h : ∀ r ∈ rs, ¬ isTerminator r) :
    0x0A ∉ encodeRunes rs ∧ 0x0D ∉ encodeRunes rs := by
  induction rs with
  | nil => simp [encodeRunes]
  | cons r rs ih =>
    have hr : ¬ (r = 0x0A ∨ r = 0x0D) := h r (List.mem_cons_self r rs)
    obtain ⟨h1, h2⟩ := ih (fun x hx => h x (List.mem_cons_of_mem r hx))
    rw [encodeRunes]
    constructor
    · intro hm
      rcases List.mem_append.1 hm with e | e
      · exact encodeRune_ne_newline r (fun e0 => hr (Or.inl e0)) e
      · exact h1 e
    · intro hm
      rcases List.mem_append.1 hm with e | e
      · exact encodeRune_ne_cr r (fun e0 => hr (Or.inr e0)) e
      · exact h2 e

/-- The builder always holds the encoding of a run of consecutive runes of the
input, none of them a terminator. -/
theorem scan_fst_run (w : Nat → Nat) (k : Int) :
    ∀ (rs done mid : List Nat) (i j : Int), (∀ r ∈ mid, ¬ isTerminator r) →
      ∃ pre mid' post, done ++ mid ++ rs = pre ++ mid' ++ post
        ∧ (scan w k rs (encodeRunes mid) i j).1 = encodeRunes mid'
        ∧ (∀ r ∈ mid', ¬ isTerminator r) := by
  intro rs
  induction rs with
  | nil =>
    intro done mid i j hmid
    exact ⟨done, mid, [], rfl, rfl, hmid⟩
  | cons r rs ih =>
    intro done mid i j hmid
    rw [scan]
    by_cases hr : r = 0x0A ∨ r = 0x0D
    · simp only [hr, if_true]
      obtain ⟨pre, mid', post, h1, h2, h3⟩ :=
        ih (done ++ mid ++ [r]) [] (i + ((encodeRune r).length : Int)) 0 (by simp)
      have h1' : done ++ mid ++ r :: rs = pre ++ mid' ++ post := by
        rw [← h1]; simp
      split_ifs <;> first
        | exact ⟨done, mid, r :: rs, rfl, rfl, hmid⟩
        | exact ⟨pre, mid', post, h1', h2, h3⟩
    · simp only [hr, if_false]
      have hmid' : ∀ x ∈ mid ++ [r], ¬ isTerminator x := by
        intro x hx
        rcases List.mem_append.1 hx with e | e
        · exact hmid x e
        · rw [List.mem_singleton.1 e]; exact hr
      have henc : encodeRunes mid ++ encodeRune r = encodeRunes (mid ++ [r]) := by
        rw [encodeRunes_append]; simp [encodeRunes]
      rw [henc]
      obtain ⟨pre, mid', post, h1, h2, h3⟩ := ih done (mid ++ [r]) _ _ hmid'
      refine ⟨pre, mid', post, ?_, h2, h3⟩
      rw [← h1]; simp

/-- C16 as stated fails: for the input consisting of the invalid byte `0xFF`
the rendered line is the three bytes of the replacement character, which is no
part of the input. -/
theorem printJSONError_line_not_substring :
    printJSONError sampleWidth cli0 [0xFF] (syntaxErrorAt (lit "invalid character") 1)
        = some (writeErr cli0 (diagnostic [0xEF, 0xBF, 0xBD] 3))
      ∧ ¬ ∃ pre post : GoString, [0xFF] = pre ++ [0xEF, 0xBF, 0xBD] ++ post := by
  refine ⟨by decide, ?_⟩
  rintro ⟨pre, post, h⟩
  have h0 := congrArg List.length h
  simp at h0
  omega

/-- C16, amended. For every input text and every offset (any integer) the line
rendered by the byte-offset path of `printJSONError` contains neither `\n` nor
`\r`, and it is the encoding of a run of consecutive runes read from the input
(an invalid byte being read as the replacement character); for well-formed
UTF-8 input it is a contiguous substring of the input. -/
theorem printJSONError_line_no_terminator (w : Nat → Nat) (c : cli) (input : GoString)
    (err : GoError) (k : Int) (hkind : err.kind = .syntaxError k)
    (herr : err.Error ≠ lit "unexpected EOF") :
    ∃ line n, printJSONError w c input err = some (writeErr c (diagnostic line n))
      ∧ 0x0A ∉ line ∧ 0x0D ∉ line
      ∧ (∃ pre mid post, rangeString input = pre ++ mid ++ post ∧ line = encodeRunes mid)
      ∧ (∀ rs, (∀ r ∈ rs, validRune r) → input = encodeRunes rs →
          ∃ pre post, input = pre ++ line ++ post) := by
  obtain ⟨pre, mid, post, h1, h2, h3⟩ := scan_fst_run w k (rangeString input) [] [] 0 0 (by simp)
  simp only [List.nil_append, encodeRunes] at h1 h2
  obtain ⟨hnl, hcr⟩ := encodeRunes_no_terminator mid h3
  refine ⟨(scan w k (rangeString input) [] 0 0).1,
    (3 + (scan w k (rangeString input) [] 0 0).2).toNat, ?_, ?_, ?_, ⟨pre, mid, post, h1, h2⟩, ?_⟩
  · rw [printJSONError_syntaxError w c input err k hkind herr, Fprintf_caret]
  · rw [h2]; exact hnl
  · rw [h2]; exact hcr
  · intro rs hvalid hin
    refine ⟨encodeRunes pre, encodeRunes post, ?_⟩
    rw [h2, ← encodeRunes_append, ← encodeRunes_append, ← h1, hin,
      rangeString_encodeRunes rs hvalid]

/-- C16 amended, on the text of the test "invalid json: invalid character". -/
theorem printJSONError_line_no_terminator_witness :
    ∃ line n, printJSONError sampleWidth cli0 (lit "\x7b\n  \"あいうえお\" 100\n\x7d")
        (syntaxErrorAt (lit "invalid character") 23) = some (writeErr cli0 (diagnostic line n))
      ∧ 0x0A ∉ line ∧ 0x0D ∉ line
      ∧ (∃ pre mid post, rangeString (lit "\x7b\n  \"あいうえお\" 100\n\x7d") = pre ++ mid ++ post
          ∧ line = encodeRunes mid)
      ∧ (∀ rs, (∀ r ∈ rs, validRune r) → lit "\x7b\n  \"あいうえお\" 100\n\x7d" = encodeRunes rs →
          ∃ pre post, lit "\x7b\n  \"あいうえお\" 100\n\x7d" = pre ++ line ++ post) :=
  printJSONError_line_no_terminator sampleWidth cli0 (lit "\x7b\n  \"あいうえお\" 100\n\x7d")
    (syntaxErrorAt (lit "invalid character") 23) 23 rfl (by decide)

/-! ## The size of the caret line -/

/-- The column counter never exceeds the display width of the text read, plus
one: the count `printJSONError` hands to `strings.Repeat` is bounded by the
width of the input. -/
theorem scan_snd_le (w : Nat → Nat) (k : Int) :
    ∀ (rs : List Nat) (s : GoString) (i j : Int), 0 ≤ j →
      (scan w k rs s i j).2 ≤ j + (runesWidth w rs : Int) + 1 := by
  intro rs
  induction rs with
  | nil =>
    intro s i j hj
    simp only [scan, runesWidth_nil]
    omega
  | cons r rs ih =>
    intro s i j hj
    have hw : (0 : Int) ≤ (w r : Int) := Int.natCast_nonneg _
    have hrs : (0 : Int) ≤ (runesWidth w rs : Int) := Int.natCast_nonneg _
    rw [scan, runesWidth_cons]
    push_cast
    split_ifs
    all_goals first
      | (simp only; omega)
      | (have h := ih [] (i + ((encodeRune r).length : Int)) 0 (le_refl 0); omega)
      | (have h := ih (s ++ encodeRune r) (i + ((encodeRune r).length : Int))
          (j + (w r : Int)) (by omega); omega)
      | (have h := ih (s ++ encodeRune r) (i + ((encodeRune r).length : Int)) j hj; omega)

end Gojq
